import Mathlib

/-!
Verification development for the pathsum directory-summary tool.

The development shallowly embeds the tool's filter engine and summary writer
(`src/pathsum_tool/main.py`, with the legacy variant `pathsum.py`) into Lean:

* shell-style glob matching as performed by Python's `fnmatch.fnmatch`
  (patterns with `*`, `?`, `[seq]`, `[!seq]`; unterminated `[` is a literal);
* the POSIX path helpers the tool calls (`os.path.normpath`, `os.path.join`,
  `str.strip`, `str.rstrip('/')`);
* the text-likelihood heuristic `is_likely_text_file`, over an explicit model
  of the per-file I/O behaviour (size query, regular-file test, chunk read,
  full read), including a strict UTF-8 decoder for the chunk check;
* the pattern-file parser `parse_pattern_file`;
* the `create_summary` walk: directory pruning, the two-phase per-file
  include/exclude decision, the text check, the output stream layout and the
  run counters, driven over an explicit directory-tree model.

Directories and files are modelled as a tree whose names are plain path
components; relative paths are produced by joining components with `/`,
which is what `os.path.relpath(os.path.normpath(os.path.join(...)), start)`
computes for component-shaped names when the scan starts at `.`.
-/

/-! ### Glob matching (model of Python `fnmatch.fnmatch` on POSIX) -/

/-- Item of a glob bracket expression: a literal character or a range. -/
inductive BrItem where
  | single (c : Char)
  | range (lo hi : Char)
deriving DecidableEq

/-- Does character `c` match one bracket item? Ranges use code-point order. -/
def brItemMatch (c : Char) : BrItem → Bool
  | .single a => c = a
  | .range lo hi => lo ≤ c && c ≤ hi

/-- Parses the items of a bracket expression, after `[` and an optional `!`.
The first argument is true at the first item position, where `]` is a literal
(as in `fnmatch.translate`); afterwards `]` closes the expression.  `a-b`
followed by anything but `]` is a range; a trailing `-` is a literal.
Returns the items and the remaining pattern, or `none` if `]` never comes. -/
def parseBrItems : Bool → List Char → Option (List BrItem × List Char)
  | false, ']' :: rest => some ([], rest)
  | _, a :: '-' :: b :: rest =>
      if b = ']' then some ([.single a, .single '-'], rest)
      else (parseBrItems false rest).map (fun p => (.range a b :: p.1, p.2))
  | _, a :: rest => (parseBrItems false rest).map (fun p => (.single a :: p.1, p.2))
  | _, [] => none

/-- Parses a bracket expression (pattern suffix after `[`): optional leading
`!` negates the set. -/
def parseBracket (s : List Char) : Option (Bool × List BrItem × List Char) :=
  match s with
  | '!' :: r => (parseBrItems true r).map (fun p => (true, p.1, p.2))
  | _ => (parseBrItems true s).map (fun p => (false, p.1, p.2))

/-- Fuel-indexed glob matcher; every recursive call strictly decreases the
total number of pattern plus subject characters, so fuel exceeding that sum
never runs out.  `*` matches any sequence (including `/`, as `fnmatch` does),
`?` any single character, and a bracket set one character from the set. -/
def globMatchF : Nat → List Char → List Char → Bool
  | 0, _, _ => false
  | _ + 1, [], s => s.isEmpty
  | fuel + 1, '*' :: ps, s =>
      globMatchF fuel ps s ||
        (match s with
         | [] => false
         | _ :: s' => globMatchF fuel ('*' :: ps) s')
  | fuel + 1, '?' :: ps, s =>
      (match s with
       | [] => false
       | _ :: s' => globMatchF fuel ps s')
  | fuel + 1, '[' :: ps, s =>
      (match parseBracket ps with
       | some (neg, items, rest) =>
           (match s with
            | [] => false
            | c :: s' => (neg != items.any (brItemMatch c)) && globMatchF fuel rest s')
       | none =>
           (match s with
            | [] => false
            | c :: s' => (c == '[') && globMatchF fuel ps s'))
  | fuel + 1, p :: ps, s =>
      (match s with
       | [] => false
       | c :: s' => (c == p) && globMatchF fuel ps s')

/-- Total glob matcher over character lists. -/
def globMatch (p s : List Char) : Bool := globMatchF (p.length + s.length + 1) p s

/-- Model of `fnmatch.fnmatch(name, pat)`; `os.path.normcase` is the identity
on POSIX, so the match is anchored and case sensitive. -/
def fnmatch (name pat : String) : Bool := globMatch pat.data name.data

/-! ### Python string and path helpers -/

/-- Characters removed by Python `str.strip()` (the ASCII whitespace set;
the tool's pattern files are ASCII). -/
def isPySpace (c : Char) : Bool :=
  c = ' ' || c = '\t' || c = '\n' || c = '\r' || c = '\x0b' || c = '\x0c'

/-- Model of Python `str.strip()`. -/
def pyStrip (s : String) : String :=
  ⟨((s.data.dropWhile isPySpace).reverse.dropWhile isPySpace).reverse⟩

/-- Model of Python `str.rstrip('/')`: drops every trailing slash. -/
def rstripSlashes (s : String) : String :=
  ⟨(s.data.reverse.dropWhile (· = '/')).reverse⟩

/-- Model of Python `str.startswith` (list form, for proof convenience). -/
def pyStartsWith (s pre : String) : Bool := pre.data.isPrefixOf s.data

/-- Model of Python `str.endswith` for a one-character suffix test. -/
def pyEndsWith (s suf : String) : Bool := suf.data.isSuffixOf s.data

/-- Model of `posixpath.join` restricted to two operands, as the tool uses. -/
def pyJoin (a b : String) : String :=
  if pyStartsWith b "/" then b
  else if a = "" || pyEndsWith a "/" then a ++ b
  else a ++ "/" ++ b

/-- Model of Python `str.split('/')`: splits at every slash, keeping empty
pieces (kernel-computable, unlike `String.splitOn`). -/
def splitSlash : List Char → List (List Char)
  | [] => [[]]
  | c :: rest =>
    let r := splitSlash rest
    if c = '/' then [] :: r
    else
      match r with
      | h :: t => (c :: h) :: t
      | [] => [[c]]

/-- Model of `posixpath.normpath`: collapses separators, drops `.`,
resolves `..` where possible and preserves the leading-slash count quirk. -/
def normpath (p : String) : String :=
  if p = "" then "." else
  let initialSlashes : Nat :=
    if pyStartsWith p "/" then
      if pyStartsWith p "//" && !(pyStartsWith p "///") then 2 else 1
    else 0
  let comps := (splitSlash p.data).map (fun l => (⟨l⟩ : String))
  let newComps := comps.foldl (fun acc comp =>
    if comp = "" ∨ comp = "." then acc
    else if comp ≠ ".." ∨ (initialSlashes = 0 ∧ acc = []) ∨ acc.getLast? = some ".."
      then acc ++ [comp]
    else if acc ≠ [] then acc.dropLast else acc) []
  let path := String.intercalate "/" newComps
  let path := String.join (List.replicate initialSlashes "/") ++ path
  if path = "" then "." else path

/-- Model of the tool's `normalize_path`: replaces `os.sep` by `/`, which on
POSIX (`os.sep = '/'`) is the identity. -/
def normalize_path (p : String) : String := p

/-! ### Strict UTF-8 decoding (model of reading a text chunk) -/

/-- Leading-byte classification of CPython's strict UTF-8 decoder: the
number of continuation bytes and the admissible range of the first one
(`none` for an invalid leading byte).  The ranges reject overlong forms,
surrogates and code points above `0x10FFFF`, as the strict codec does. -/
def utf8Lead (b : Nat) : Option (Nat × Nat × Nat) :=
  if b < 0x80 then some (0, 0x80, 0xBF)
  else if 0xC2 ≤ b && b ≤ 0xDF then some (1, 0x80, 0xBF)
  else if b = 0xE0 then some (2, 0xA0, 0xBF)
  else if (0xE1 ≤ b && b ≤ 0xEC) || b = 0xEE || b = 0xEF then some (2, 0x80, 0xBF)
  else if b = 0xED then some (2, 0x80, 0x9F)
  else if b = 0xF0 then some (3, 0x90, 0xBF)
  else if 0xF1 ≤ b && b ≤ 0xF3 then some (3, 0x80, 0xBF)
  else if b = 0xF4 then some (3, 0x80, 0x8F)
  else none

/-- Consumes `m` continuation bytes, the first within `[lo, hi]` and the
rest ordinary continuations; returns the remaining bytes, or `none` on a bad
or missing continuation (end of input mid-character is the incremental
decoder's final flush failing). -/
def utf8Conts : Nat → Nat → Nat → List Nat → Option (List Nat)
  | 0, _, _, bs => some bs
  | _ + 1, _, _, [] => none
  | m + 1, lo, hi, c :: bs =>
      if lo ≤ c && c ≤ hi then utf8Conts m 0x80 0xBF bs else none

/-- Strict UTF-8 reader: decodes up to `k` characters from the byte list,
mirroring CPython's strict `utf-8` codec.  Returns false exactly when a
decode error occurs before `k` characters are produced. -/
def utf8ReadOk : List Nat → Nat → Bool
  | _, 0 => true
  | [], _ + 1 => true
  | b :: rest, k + 1 =>
    match utf8Lead b with
    | none => false
    | some (m, lo, hi) =>
      match utf8Conts m lo hi rest with
      | none => false
      | some r => utf8ReadOk r k

/-- Strict UTF-8 validity of a whole byte list (used to state what "decoding
the first 1024 bytes" would mean, for comparison with what the code does). -/
def utf8ValidAll (bs : List Nat) : Bool := utf8ReadOk bs bs.length

/-! ### Per-file I/O model and the text-likelihood check -/

/-- Outcome of opening a file and reading its leading chunk: the raw bytes on
success, or the exception class raised (`OSError`, or any other exception). -/
inductive ChunkRead where
  | ok (bytes : List Nat)
  | osError
  | otherError
deriving DecidableEq

/-- Model of one file as the walk observes it.  `size` is the result of
`os.path.getsize` (`none` when it raises `OSError`, e.g. a vanished file);
`isRegular` is `os.path.isfile`; `chunk` is the result of opening the file and
reading its leading chunk; `fullRead` is the result of the later full-content
read with `errors='ignore'` (`none` when it raises).  The fields are separate
observations of an external filesystem, so mutually inconsistent values model
races (a file changing between the two reads). -/
structure FileNode where
  name : String
  size : Option Nat
  isRegular : Bool
  chunk : ChunkRead
  fullRead : Option String
deriving DecidableEq

/-- Model of `is_likely_text_file` from `src/pathsum_tool/main.py` (lines
21-46).  Returns the boolean result paired with whether a warning was
printed: zero-size files are text; non-regular files are rejected silently;
a strict UTF-8 decode of the chunk read of up to 1024 characters decides the
rest; `UnicodeDecodeError` and `OSError` are swallowed silently, and only the
generic `except Exception` arm prints a warning. -/
def is_likely_text_file (f : FileNode) : Bool × Bool :=
  match f.size with
  | none => (false, false)
  | some n =>
    if n = 0 then (true, false)
    else if !f.isRegular then (false, false)
    else
      match f.chunk with
      | .ok bs => if utf8ReadOk bs 1024 then (true, false) else (false, false)
      | .osError => (false, false)
      | .otherError => (false, true)

namespace legacy

/-- Model of `is_likely_text_file` from the legacy `pathsum.py` (lines 21-36):
no size or regular-file pre-checks; `UnicodeDecodeError` is silent and every
other exception prints a warning. -/
def is_likely_text_file (f : FileNode) : Bool × Bool :=
  match f.chunk with
  | .ok bs => if utf8ReadOk bs 1024 then (true, false) else (false, false)
  | .osError => (false, true)
  | .otherError => (false, true)

end legacy

/-! ### Pattern-file parsing -/

/-- Line-level core of `parse_pattern_file`: keeps, in order, the stripped
form of every line that is non-empty after stripping and whose stripped form
does not start with `#`. -/
def parse_pattern_lines : List String → List String
  | [] => []
  | l :: ls =>
    let s := pyStrip l
    if s ≠ "" ∧ ¬ pyStartsWith s "#" then s :: parse_pattern_lines ls
    else parse_pattern_lines ls

/-- Model of `parse_pattern_file` (`src/pathsum_tool/main.py` lines 48-64).
The argument is `none` when the file does not exist or opening it fails, in
which case the exception handlers print a warning and the accumulated (empty)
list is returned.  Returns the patterns paired with whether a warning was
printed. -/
def parse_pattern_file (contents : Option (List String)) : List String × Bool :=
  match contents with
  | none => ([], true)
  | some lines => (parse_pattern_lines lines, false)

/-! ### Filter configuration -/

/-- Arguments of `create_summary` as supplied by the caller (the CLI layer):
already-normalized direct include/exclude paths, the pattern lists and the
inclusion-mode flag (`src/pathsum_tool/main.py` lines 72-97). -/
structure Config where
  include_dirs : List String
  include_files : List String
  include_patterns : List String
  exclude_dirs : List String
  exclude_files : List String
  exclude_patterns : List String
  inclusion_mode : Bool
deriving DecidableEq

/-- Model of `combined_exclude_patterns` (lines 102-104): pattern-file
patterns, then direct exclude files, then direct exclude dirs rendered as
`dir/` patterns. -/
def combined_exclude_patterns (c : Config) : List String :=
  c.exclude_patterns ++ c.exclude_files ++
    c.exclude_dirs.map (fun d => if pyEndsWith d "/" then d else d ++ "/")

/-- Effective configuration during the walk, after the summary file has been
registered: the caller's fields plus the combined exclude-pattern list. -/
structure EffConfig where
  include_dirs : List String
  include_files : List String
  include_patterns : List String
  exclude_dirs : List String
  exclude_files : List String
  combined : List String
  inclusion_mode : Bool
deriving DecidableEq

/-- Builds the effective configuration (lines 99-110): the combined pattern
list, then the summary file's normalized path added to `exclude_files` (set
add) and appended to the combined patterns when not already present. -/
def effConfig (c : Config) (summary_norm : String) : EffConfig :=
  let combined := combined_exclude_patterns c
  ⟨c.include_dirs, c.include_files, c.include_patterns,
   c.exclude_dirs,
   if c.exclude_files.contains summary_norm then c.exclude_files
     else c.exclude_files ++ [summary_norm],
   if combined.contains summary_norm then combined
     else combined ++ [summary_norm],
   c.inclusion_mode⟩

/-! ### The three per-path decisions of the filter engine -/

/-- Inclusion-phase decision (lines 182-200): direct membership of the
relative path or the bare name in `include_files`, the relative path lying
under a member of `include_dirs` (prefix `d + "/"`), or an `include_patterns`
match of the relative path or the bare name. -/
def should_consider (c : EffConfig) (rel name : String) : Bool :=
  c.include_files.contains rel || c.include_files.contains name ||
  c.include_dirs.any (fun d => pyStartsWith rel (d ++ "/")) ||
  c.include_patterns.any (fun pat => fnmatch rel pat || fnmatch name pat)

/-- Exclusion-phase decision for files (lines 210-219): direct membership of
the relative path or bare name in `exclude_files`, or a combined-pattern
match of the relative path or the bare name. -/
def file_is_excluded (c : EffConfig) (rel name : String) : Bool :=
  c.exclude_files.contains rel || c.exclude_files.contains name ||
  c.combined.any (fun pat => fnmatch rel pat || fnmatch name pat)

/-- Pruning decision for a subdirectory (lines 151-166): direct membership of
the relative path in `exclude_dirs`, or a combined-pattern match of the
relative path with a trailing slash, the relative path itself, or the bare
name against the pattern with trailing slashes stripped. -/
def dir_is_excluded (c : EffConfig) (rel name : String) : Bool :=
  c.exclude_dirs.contains rel ||
  c.combined.any (fun pat =>
    fnmatch (rel ++ "/") pat || fnmatch rel pat || fnmatch name (rstripSlashes pat))

/-! ### Directory-tree model and the walk -/

mutual
/-- A directory: named subdirectories and the files it contains directly. -/
inductive DirTree where
  | node (subdirs : SubdirList) (files : List FileNode)
/-- The subdirectory list of a directory. -/
inductive SubdirList where
  | nil
  | cons (name : String) (tree : DirTree) (rest : SubdirList)
end

/-- Relative path of a child named `name` of the directory at relative path
`dr` (the scan root is `""`): what `os.path.relpath` returns for
component-shaped names. -/
def joinRel (dr name : String) : String := if dr = "" then name else dr ++ "/" ++ name

/-- One produced output entry: relative path, bare file name, content, and
(model bookkeeping) the component path of the file below the walk's start,
ending in the file's name. -/
structure Entry where
  rel : String
  name : String
  content : String
  comps : List String
deriving DecidableEq

/-- Result of a walk: the bytes written to the output stream, the produced
entries, the visited directories and the pruned directories (as component
paths below the walk's start; the start itself is `[]`), and the run
counters of `create_summary` (plus a count of printed per-file warnings). -/
structure WalkRes where
  out : String
  entries : List Entry
  visited : List (List String)
  prunedDirs : List (List String)
  skipped_dirs_count : Nat
  processed_files_count : Nat
  skipped_files_count : Nat
  considered_by_include_count : Nat
  excluded_count : Nat
  warnings : Nat
deriving DecidableEq

/-- The empty walk result. -/
def WalkRes.empty : WalkRes := ⟨"", [], [], [], 0, 0, 0, 0, 0, 0⟩

/-- Sequential composition of walk results: output bytes and lists
concatenate, counters add. -/
def WalkRes.app (a b : WalkRes) : WalkRes :=
  ⟨a.out ++ b.out, a.entries ++ b.entries, a.visited ++ b.visited,
   a.prunedDirs ++ b.prunedDirs,
   a.skipped_dirs_count + b.skipped_dirs_count,
   a.processed_files_count + b.processed_files_count,
   a.skipped_files_count + b.skipped_files_count,
   a.considered_by_include_count + b.considered_by_include_count,
   a.excluded_count + b.excluded_count,
   a.warnings + b.warnings⟩

/-- Re-roots a subdirectory's walk result below its name in the parent:
component paths gain the subdirectory's name as head; output, relative
paths and counters are unchanged.  Model bookkeeping only. -/
def WalkRes.underDir (n : String) (r : WalkRes) : WalkRes :=
  ⟨r.out, r.entries.map (fun e => ⟨e.rel, e.name, e.content, n :: e.comps⟩),
   r.visited.map (fun v => n :: v), r.prunedDirs.map (fun p => n :: p),
   r.skipped_dirs_count, r.processed_files_count, r.skipped_files_count,
   r.considered_by_include_count, r.excluded_count, r.warnings⟩

/-- Outcome of the per-file pipeline (lines 177-244). -/
inductive FileOutcome where
  | notIncluded
  | excludedFile
  | binary
  | readError
  | processed (rel content : String)
deriving DecidableEq

/-- The per-file pipeline (lines 177-244): the inclusion gate when
`inclusion_mode` is on, then the exclusion check, then the text-likelihood
check, then the full read whose failure is a per-file skip. -/
def fileOutcome (c : EffConfig) (rel : String) (f : FileNode) : FileOutcome :=
  if c.inclusion_mode && !(should_consider c rel f.name) then .notIncluded
  else if file_is_excluded c rel f.name then .excludedFile
  else if (is_likely_text_file f).1 then
    match f.fullRead with
    | some content => .processed rel content
    | none => .readError
  else .binary

/-- Bytes written for one included file (lines 235-237): the header line,
the verbatim content as read, then two newline characters. -/
def entryRender (e : Entry) : String := "# " ++ e.rel ++ "\n" ++ e.content ++ "\n\n"

/-- Walk contribution of a single file: output, entry and counter increments
according to its pipeline outcome. -/
def fileRes (c : EffConfig) (dr : String) (f : FileNode) : WalkRes :=
  let rel := joinRel dr f.name
  let considered : Nat := if c.inclusion_mode then 1 else 0
  match fileOutcome c rel f with
  | .notIncluded => ⟨"", [], [], [], 0, 0, 1, 0, 0, 0⟩
  | .excludedFile => ⟨"", [], [], [], 0, 0, 1, considered, 1, 0⟩
  | .binary =>
      ⟨"", [], [], [], 0, 0, 1, considered, 0,
        if (is_likely_text_file f).2 then 1 else 0⟩
  | .readError => ⟨"", [], [], [], 0, 0, 1, considered, 0, 1⟩
  | .processed r content =>
      ⟨entryRender ⟨r, f.name, content, [f.name]⟩,
        [⟨r, f.name, content, [f.name]⟩], [], [],
        0, 1, 0, considered, 0, 0⟩

/-- Sequentially processes the files of one directory, in listing order. -/
def processFiles (c : EffConfig) (dr : String) : List FileNode → WalkRes
  | [] => .empty
  | f :: fs => (fileRes c dr f).app (processFiles c dr fs)

/-- Pruning pass over the subdirectory listing (lines 148-174): each excluded
subdirectory is recorded and counted once. -/
def pruneRes (c : EffConfig) (dr : String) : SubdirList → WalkRes
  | .nil => .empty
  | .cons n _ rest =>
    (if dir_is_excluded c (joinRel dr n) n then
       (⟨"", [], [], [[n]], 1, 0, 0, 0, 0, 0⟩ : WalkRes)
     else .empty).app (pruneRes c dr rest)

mutual
/-- Top-down walk of one directory, as `os.walk(topdown=True)` drives it:
record the visit, prune the subdirectory listing, process this directory's
files, then descend into the surviving subdirectories in order. -/
def walkDir (c : EffConfig) (dr : String) : DirTree → WalkRes
  | .node subs files =>
    (⟨"", [], [([] : List String)], [], 0, 0, 0, 0, 0, 0⟩ : WalkRes).app
      ((pruneRes c dr subs).app ((processFiles c dr files).app (walkSubs c dr subs)))
/-- Descends into each non-pruned subdirectory in listing order. -/
def walkSubs (c : EffConfig) (dr : String) : SubdirList → WalkRes
  | .nil => .empty
  | .cons n t rest =>
    (if dir_is_excluded c (joinRel dr n) n then WalkRes.empty
     else (walkDir c (joinRel dr n) t).underDir n).app (walkSubs c dr rest)
end

/-- Model of `create_summary` (`src/pathsum_tool/main.py` lines 72-248): the
summary file's normalized path is registered into the exclusions, and if the
output stream can be opened the walk runs to completion; otherwise the outer
`except IOError` reports the failure and the run aborts with nothing
processed. -/
def create_summary (output_filename start_dir : String) (c : Config) (tree : DirTree)
    (canOpenOutput : Bool) : Except String WalkRes :=
  let summary_norm := normalize_path (normpath (pyJoin start_dir output_filename))
  if canOpenOutput then
    .ok (walkDir (effConfig c summary_norm) "" tree)
  else
    .error ("Error opening or writing summary file " ++ output_filename)

/-! ### Counting recursions used to state the counter invariants -/

mutual
/-- Number of files lying in directories the walk visits (the scanned root
and every subdirectory reachable without crossing a pruned one). -/
def reachedFilesCount (c : EffConfig) (dr : String) : DirTree → Nat
  | .node subs files => files.length + reachedFilesSubs c dr subs
/-- Helper of `reachedFilesCount` over a subdirectory listing. -/
def reachedFilesSubs (c : EffConfig) (dr : String) : SubdirList → Nat
  | .nil => 0
  | .cons n t rest =>
    (if dir_is_excluded c (joinRel dr n) n then 0
     else reachedFilesCount c (joinRel dr n) t) + reachedFilesSubs c dr rest
end

mutual
/-- Number of pruning decisions the walk takes (one per excluded
subdirectory of a visited directory). -/
def prunedDecisionCount (c : EffConfig) (dr : String) : DirTree → Nat
  | .node subs _ => prunedDecisionSubs c dr subs
/-- Helper of `prunedDecisionCount` over a subdirectory listing. -/
def prunedDecisionSubs (c : EffConfig) (dr : String) : SubdirList → Nat
  | .nil => 0
  | .cons n t rest =>
    (if dir_is_excluded c (joinRel dr n) n then 1
     else prunedDecisionCount c (joinRel dr n) t) + prunedDecisionSubs c dr rest
end

/-! ### Well-formed trees -/

/-- A name is a plain path component: non-empty, not `.` or `..`, and
slash-free.  Real directory listings only produce such names, and for them
the source's `relpath`/`normpath` computations coincide with `joinRel`. -/
def componentOk (s : String) : Bool :=
  s ≠ "" && s ≠ "." && s ≠ ".." && !(s.data.contains '/')

/-- The names of a subdirectory listing, in order. -/
def subNames : SubdirList → List String
  | .nil => []
  | .cons n _ rest => n :: subNames rest

mutual
/-- Well-formedness of a tree: every file and subdirectory name is a plain
component, names are duplicate-free within each directory (as on a real
filesystem), recursively. -/
def wfDir : DirTree → Bool
  | .node subs files =>
    (files.map (fun f => f.name)).all componentOk &&
    decide (files.map (fun f => f.name)).Nodup &&
    (subNames subs).all componentOk &&
    decide (subNames subs).Nodup &&
    wfSubs subs
/-- Helper of `wfDir` over a subdirectory listing. -/
def wfSubs : SubdirList → Bool
  | .nil => true
  | .cons _ t rest => wfDir t && wfSubs rest
end

/-! ### Reachability of a file position in the tree -/

/-- Membership of a named subtree in a subdirectory listing. -/
inductive SubMem : SubdirList → String → DirTree → Prop
  | head (n : String) (t : DirTree) (rest : SubdirList) : SubMem (.cons n t rest) n t
  | tail (n' : String) (t' : DirTree) {rest : SubdirList} {n : String} {t : DirTree} :
      SubMem rest n t → SubMem (.cons n' t' rest) n t

/-- Relative path of the directory reached from `dr` along components. -/
def relAlong (dr : String) (comps : List String) : String := comps.foldl joinRel dr

/-- A file at component path `comps` below the directory at `dr`, with every
directory on the way surviving the pruning decision: exactly the files whose
enclosing directory the walk visits. -/
inductive FileReachable (c : EffConfig) : String → DirTree → List String → FileNode → Prop
  | here {dr : String} {subs : SubdirList} {files : List FileNode} {f : FileNode} :
      f ∈ files → FileReachable c dr (.node subs files) [] f
  | there {dr : String} {subs : SubdirList} {files : List FileNode} {n : String}
      {t : DirTree} {comps : List String} {f : FileNode} :
      SubMem subs n t →
      dir_is_excluded c (joinRel dr n) n = false →
      FileReachable c (joinRel dr n) t comps f →
      FileReachable c dr (.node subs files) (n :: comps) f

/-! ### Predicates written from the claims' words, for comparison -/

/-- Inclusion condition exactly as claim C1 words it: exact membership of the
relative path or bare name in `includeFiles`, the relative path starting with
`d + "/"` for some `d` in `includeDirs`, or a glob match of the relative path
or bare name against some member of `includePatterns`. -/
def spec_inclusion_pass (incF incD incP : List String) (rel name : String) : Bool :=
  incF.contains rel || incF.contains name ||
  incD.any (fun d => pyStartsWith rel (d ++ "/")) ||
  incP.any (fun pat => fnmatch rel pat || fnmatch name pat)

/-- Exclusion condition exactly as claim C2 words it, over the caller's
configuration: exact membership in `excludeFiles`, or a match in the combined
exclude-pattern set (pattern-file patterns, direct exclude files, and direct
exclude dirs rendered as `dir/` patterns). -/
def spec_file_excluded (c : Config) (rel name : String) : Bool :=
  c.exclude_files.contains rel || c.exclude_files.contains name ||
  (combined_exclude_patterns c).any (fun pat => fnmatch rel pat || fnmatch name pat)

/-- Lines a pattern file keeps according to claim C9's literal wording: the
lines themselves (untrimmed), filtered by the trimmed-form conditions. -/
def spec_kept_lines (lines : List String) : List String :=
  lines.filter (fun l => pyStrip l ≠ "" && !(pyStartsWith (pyStrip l) "#"))

/-! ### Concrete instances used by witnesses and counterexamples -/

/-- A zero-length file (text by decree). -/
def emptyFileW : FileNode := ⟨"empty.txt", some 0, true, .ok [], some ""⟩

/-- A non-empty regular file whose open raises a permission `OSError`. -/
def permFileW : FileNode := ⟨"secret.txt", some 5, true, .osError, none⟩

/-- Byte content of 1023 ASCII characters followed by a two-byte character:
its first 1024 bytes end inside the final character. -/
def truncBytesW : List Nat := List.replicate 1023 97 ++ [0xC3, 0xA9]

/-- A regular file with content `truncBytesW`. -/
def truncFileW : FileNode := ⟨"trunc.txt", some 1025, true, .ok truncBytesW, some "a"⟩

/-- A plain readable ASCII text file. -/
def plainFileW (nm content : String) : FileNode :=
  ⟨nm, some content.data.length, true, .ok (content.data.map Char.toNat), some content⟩

/-- A file passing every filter whose full-content read raises. -/
def readErrFileW : FileNode := ⟨"flaky.txt", some 3, true, .ok [104, 105], none⟩

/-- An empty caller configuration with inclusion mode off. -/
def emptyConfigW : Config := ⟨[], [], [], [], [], [], false⟩

/-- A tree with one ordinary file and one subdirectory holding another. -/
def treeW : DirTree :=
  .node (.cons "sub" (.node .nil [plainFileW "c.txt" "world"]) .nil)
    [plainFileW "a.txt" "hello"]

/-- A tree whose only file passes every filter but fails its content read. -/
def flakyTreeW : DirTree := .node .nil [readErrFileW]

/-- Inclusion-mode effective configuration listing one file directly. -/
def inclCfgW : EffConfig := ⟨[], ["only.txt"], [], [], [], [], true⟩

/-- Configuration excluding `*.log` files by pattern, inclusion mode off. -/
def exCfgW : Config := ⟨[], [], [], [], [], ["*.log"], false⟩

/-- A tree with one text file and one log file at the root. -/
def exTreeW : DirTree :=
  .node .nil [plainFileW "a.txt" "hello", plainFileW "debug.log" "x"]

/-- A tree containing a stale copy of the output file next to a text file. -/
def selfTreeW : DirTree :=
  .node .nil [plainFileW "out.txt" "stale", plainFileW "a.txt" "hi"]

/-- Configuration directly excluding the directory `sub`. -/
def pruneCfgW : Config := ⟨[], [], [], ["sub"], [], [], false⟩

/-! ### Theorems -/

/-- Joining a concatenation of string lists concatenates the joins. -/
theorem join_append_str (l₁ l₂ : List String) :
    String.join (l₁ ++ l₂) = String.join l₁ ++ String.join l₂ := by
  apply String.ext
  simp [String.data_join]

/-- Reading one ASCII byte consumes exactly one character. -/
theorem utf8ReadOk_cons_97 (rest : List Nat) (k : Nat) :
    utf8ReadOk (97 :: rest) (k + 1) = utf8ReadOk rest k := rfl

/-- Reading ASCII bytes consumes one character per byte. -/
theorem utf8ReadOk_replicate_ascii (n k : Nat) (bs : List Nat) :
    utf8ReadOk (List.replicate n 97 ++ bs) (n + k) = utf8ReadOk bs k := by
  induction n with
  | zero => simp
  | succ m ih =>
    have h1 : List.replicate (m + 1) 97 ++ bs = 97 :: (List.replicate m 97 ++ bs) := by
      simp [List.replicate_succ]
    have h2 : m + 1 + k = (m + k) + 1 := by omega
    rw [h1, h2, utf8ReadOk_cons_97]
    exact ih

/-- The claim's theorem for C9 after amendment: `parse_pattern_file` returns,
in file order, the whitespace-trimmed forms of exactly those lines that are
non-empty after trimming and whose trimmed form does not begin with `#`; an
unreadable or missing pattern file yields the empty list with a warning and
is not an error. -/
theorem pattern_file_parse_amended (lines : List String) :
    (parse_pattern_file (some lines)).1
        = (lines.map pyStrip).filter (fun s => s ≠ "" && !(pyStartsWith s "#")) ∧
    (parse_pattern_file (some lines)).2 = false ∧
    parse_pattern_file none = ([], true) := by
  refine ⟨?_, rfl, rfl⟩
  show parse_pattern_lines lines = _
  induction lines with
  | nil => rfl
  | cons l ls ih =>
    rw [List.map_cons, List.filter_cons]
    by_cases h1 : pyStrip l = ""
    · simp [parse_pattern_lines, h1, ih]
    · by_cases h2 : pyStartsWith (pyStrip l) "#"
      · simp [parse_pattern_lines, h1, h2, ih]
      · simp [parse_pattern_lines, h1, h2, ih]

/-- Counterexample for C9 as stated: the function does not return the kept
lines themselves; a line with surrounding whitespace is returned trimmed. -/
theorem pattern_file_parse_counterexample :
    parse_pattern_file (some ["  a"]) = (["a"], false) ∧
    spec_kept_lines ["  a"] = ["  a"] ∧
    (parse_pattern_file (some ["  a"])).1 ≠ spec_kept_lines ["  a"] := by
  refine ⟨by decide, by decide, by decide⟩

/-- The claim's theorem for C5 after amendment, characterizing the
text-likelihood check of the full variant arm by arm: a zero-size file is
text; for a non-empty regular file whose chunk read yields bytes, the result
is exactly strict UTF-8 decodability of the chunk of up to 1024 characters,
with no warning either way; a vanished file (size query fails), a non-regular
file, and an `OSError` on open/read are classified binary silently; only the
generic exception arm warns; the legacy variant instead warns on every I/O
failure. -/
theorem text_check_amended (f : FileNode) :
    (f.size = some 0 → is_likely_text_file f = (true, false)) ∧
    (∀ n bs, f.size = some (n + 1) → f.isRegular = true → f.chunk = .ok bs →
        is_likely_text_file f = (utf8ReadOk bs 1024, false)) ∧
    (f.size = none → is_likely_text_file f = (false, false)) ∧
    (∀ n, f.size = some (n + 1) → f.isRegular = false →
        is_likely_text_file f = (false, false)) ∧
    (∀ n, f.size = some (n + 1) → f.isRegular = true → f.chunk = .osError →
        is_likely_text_file f = (false, false)) ∧
    (∀ n, f.size = some (n + 1) → f.isRegular = true → f.chunk = .otherError →
        is_likely_text_file f = (false, true)) ∧
    ((f.chunk = .osError ∨ f.chunk = .otherError) →
        legacy.is_likely_text_file f = (false, true)) := by
  refine ⟨?_, ?_, ?_, ?_, ?_, ?_, ?_⟩
  · intro h
    simp [is_likely_text_file, h]
  · intro n bs hs hr hc
    by_cases hu : utf8ReadOk bs 1024 <;>
      simp [is_likely_text_file, hs, hr, hc, hu]
  · intro h
    simp [is_likely_text_file, h]
  · intro n hs hr
    simp [is_likely_text_file, hs, hr]
  · intro n hs hr hc
    simp [is_likely_text_file, hs, hr, hc]
  · intro n hs hr hc
    simp [is_likely_text_file, hs, hr, hc]
  · intro h
    rcases h with h | h <;> simp [legacy.is_likely_text_file, h]

/-- Witness for C5's amended theorem at a concrete zero-length file. -/
theorem text_check_witness : is_likely_text_file emptyFileW = (true, false) :=
  (text_check_amended emptyFileW).1 rfl

/-- Counterexample for C5 as stated: a permission-denied open (an I/O error)
yields false with no warning logged in the full variant, and a file whose
first 1024 bytes end inside a multi-byte character fails strict decoding of
"the first 1024 bytes" yet is classified as text (the code reads up to 1024
characters, not bytes). -/
theorem text_check_counterexample :
    is_likely_text_file permFileW = (false, false) ∧
    utf8ValidAll (truncBytesW.take 1024) = false ∧
    is_likely_text_file truncFileW = (true, false) := by
  refine ⟨by decide, ?_, ?_⟩
  · have h : truncBytesW.take 1024 = List.replicate 1023 97 ++ [0xC3] := by
      show (List.replicate 1023 97 ++ [0xC3, 0xA9]).take 1024 = _
      have h1 : (1024 : Nat) = (List.replicate 1023 (97 : Nat)).length + 1 := by
        rw [List.length_replicate]
      rw [h1, List.take_append]
      rfl
    rw [h]
    show utf8ReadOk _ _ = false
    have h2 : (List.replicate 1023 (97 : Nat) ++ [0xC3]).length = 1023 + 1 := by
      rw [List.length_append, List.length_replicate, List.length_singleton]
    rw [h2, utf8ReadOk_replicate_ascii]
    decide
  · have h : utf8ReadOk truncBytesW 1024 = true := by
      show utf8ReadOk (List.replicate 1023 97 ++ [0xC3, 0xA9]) 1024 = true
      have h1 : (1024 : Nat) = 1023 + 1 := rfl
      rw [h1, utf8ReadOk_replicate_ascii]
      decide
    simp [is_likely_text_file, truncFileW, h]

/-- A file whose inclusion gate does not fire never gets outcome
`notIncluded`: the remaining pipeline only produces the other outcomes. -/
theorem fileOutcome_ne_notIncluded (c : EffConfig) (rel : String) (f : FileNode)
    (h : (c.inclusion_mode && !(should_consider c rel f.name)) = false) :
    fileOutcome c rel f ≠ .notIncluded := by
  unfold fileOutcome
  rw [h]
  simp only [Bool.false_eq_true, if_false]
  split
  · simp
  · split
    · cases f.fullRead <;> simp
    · simp

/-- Claim C1: with `inclusionModeActive` true, a file proceeds to the
exclusion phase (outcome other than `notIncluded`) if and only if its
relative path or bare name is an exact member of `includeFiles`, or its
relative path starts with `d ++ "/"` for some `d` in `includeDirs`, or its
relative path or bare name matches some include pattern; and when none of
these hold it is rejected with outcome `notIncluded` under every exclusion
configuration, so the exclusion phase is never evaluated. -/
theorem inclusion_gate_iff (c : EffConfig) (dr : String) (f : FileNode)
    (hm : c.inclusion_mode = true) :
    (fileOutcome c (joinRel dr f.name) f ≠ .notIncluded ↔
      spec_inclusion_pass c.include_files c.include_dirs c.include_patterns
        (joinRel dr f.name) f.name = true) ∧
    (spec_inclusion_pass c.include_files c.include_dirs c.include_patterns
        (joinRel dr f.name) f.name = false →
      ∀ exD exF comb : List String,
        fileOutcome
          ⟨c.include_dirs, c.include_files, c.include_patterns, exD, exF, comb, true⟩
          (joinRel dr f.name) f = .notIncluded) := by
  have heq : ∀ c' : EffConfig,
      should_consider c' (joinRel dr f.name) f.name
        = spec_inclusion_pass c'.include_files c'.include_dirs c'.include_patterns
            (joinRel dr f.name) f.name := fun _ => rfl
  constructor
  · by_cases hsc : should_consider c (joinRel dr f.name) f.name
    · rw [← heq c]
      simp only [hsc, iff_true]
      exact fileOutcome_ne_notIncluded c _ f (by simp [hm, hsc])
    · rw [Bool.not_eq_true] at hsc
      rw [← heq c]
      simp only [hsc, Bool.false_eq_true, iff_false, ne_eq, not_not]
      unfold fileOutcome
      simp [hm, hsc]
  · intro hfail exD exF comb
    have hsc : should_consider
        (⟨c.include_dirs, c.include_files, c.include_patterns, exD, exF, comb, true⟩
          : EffConfig) (joinRel dr f.name) f.name = false := by
      rw [heq]
      exact hfail
    unfold fileOutcome
    simp [hsc]

/-- Witness for C1 at a concrete inclusion-mode configuration and file. -/
theorem inclusion_gate_iff_witness :
    fileOutcome inclCfgW (joinRel "" (plainFileW "only.txt" "x").name)
      (plainFileW "only.txt" "x") ≠ .notIncluded :=
  (inclusion_gate_iff inclCfgW "" (plainFileW "only.txt" "x") rfl).1.mpr (by decide)

/-- Appending the empty string on the left is the identity. -/
theorem str_empty_append (s : String) : "" ++ s = s := by
  apply String.ext
  simp

/-- Projection of `WalkRes.app` on the output stream. -/
@[simp] theorem WalkRes.app_out (a b : WalkRes) : (a.app b).out = a.out ++ b.out := rfl

/-- Projection of `WalkRes.app` on entries. -/
@[simp] theorem WalkRes.app_entries (a b : WalkRes) :
    (a.app b).entries = a.entries ++ b.entries := rfl

/-- Projection of `WalkRes.app` on visited directories. -/
@[simp] theorem WalkRes.app_visited (a b : WalkRes) :
    (a.app b).visited = a.visited ++ b.visited := rfl

/-- Projection of `WalkRes.app` on pruned directories. -/
@[simp] theorem WalkRes.app_prunedDirs (a b : WalkRes) :
    (a.app b).prunedDirs = a.prunedDirs ++ b.prunedDirs := rfl

/-- Projection of `WalkRes.app` on the pruned-directory counter. -/
@[simp] theorem WalkRes.app_skipped_dirs (a b : WalkRes) :
    (a.app b).skipped_dirs_count = a.skipped_dirs_count + b.skipped_dirs_count := rfl

/-- Projection of `WalkRes.app` on the processed-file counter. -/
@[simp] theorem WalkRes.app_processed (a b : WalkRes) :
    (a.app b).processed_files_count = a.processed_files_count + b.processed_files_count := rfl

/-- Projection of `WalkRes.app` on the skipped-file counter. -/
@[simp] theorem WalkRes.app_skipped (a b : WalkRes) :
    (a.app b).skipped_files_count = a.skipped_files_count + b.skipped_files_count := rfl

/-- Projection of `WalkRes.app` on the warning counter. -/
@[simp] theorem WalkRes.app_warnings (a b : WalkRes) :
    (a.app b).warnings = a.warnings + b.warnings := rfl

/-- Projections of `WalkRes.underDir`. -/
@[simp] theorem WalkRes.underDir_out (n : String) (r : WalkRes) :
    (r.underDir n).out = r.out := rfl

/-- Entries of a re-rooted result gain the subdirectory name as head. -/
@[simp] theorem WalkRes.underDir_entries (n : String) (r : WalkRes) :
    (r.underDir n).entries = r.entries.map (fun e => ⟨e.rel, e.name, e.content, n :: e.comps⟩) := rfl

/-- Visited directories of a re-rooted result. -/
@[simp] theorem WalkRes.underDir_visited (n : String) (r : WalkRes) :
    (r.underDir n).visited = r.visited.map (fun v => n :: v) := rfl

/-- Pruned directories of a re-rooted result. -/
@[simp] theorem WalkRes.underDir_prunedDirs (n : String) (r : WalkRes) :
    (r.underDir n).prunedDirs = r.prunedDirs.map (fun p => n :: p) := rfl

/-- Counters of a re-rooted result are unchanged. -/
@[simp] theorem WalkRes.underDir_counts (n : String) (r : WalkRes) :
    (r.underDir n).skipped_dirs_count = r.skipped_dirs_count ∧
    (r.underDir n).processed_files_count = r.processed_files_count ∧
    (r.underDir n).skipped_files_count = r.skipped_files_count ∧
    (r.underDir n).warnings = r.warnings := ⟨rfl, rfl, rfl, rfl⟩

/-- The empty walk result's projections. -/
@[simp] theorem WalkRes.empty_fields :
    WalkRes.empty.out = "" ∧ WalkRes.empty.entries = ([] : List Entry) ∧
    WalkRes.empty.visited = ([] : List (List String)) ∧
    WalkRes.empty.prunedDirs = ([] : List (List String)) ∧
    WalkRes.empty.skipped_dirs_count = 0 ∧ WalkRes.empty.processed_files_count = 0 ∧
    WalkRes.empty.skipped_files_count = 0 ∧ WalkRes.empty.warnings = 0 :=
  ⟨rfl, rfl, rfl, rfl, rfl, rfl, rfl, rfl⟩

/-- Output-shape invariant: the stream is exactly the concatenation of one
rendered entry per produced entry, and entries count the processed files. -/
def OutShape (r : WalkRes) : Prop :=
  r.out = String.join (r.entries.map entryRender) ∧
  r.entries.length = r.processed_files_count

/-- The empty result has the output shape. -/
theorem outShape_empty : OutShape WalkRes.empty := ⟨rfl, rfl⟩

/-- Composition preserves the output shape. -/
theorem outShape_app {a b : WalkRes} (ha : OutShape a) (hb : OutShape b) :
    OutShape (a.app b) := by
  refine ⟨?_, ?_⟩
  · simp [ha.1, hb.1, join_append_str]
  · simp [ha.2, hb.2]

/-- Re-rooting preserves the output shape. -/
theorem outShape_under (n : String) {r : WalkRes} (h : OutShape r) :
    OutShape (r.underDir n) := by
  refine ⟨?_, ?_⟩
  · have hmap : List.map entryRender
        (List.map (fun e : Entry => (⟨e.rel, e.name, e.content, n :: e.comps⟩ : Entry))
          r.entries) = List.map entryRender r.entries := by
      rw [List.map_map]
      exact List.map_congr_left (fun e _ => rfl)
    simp only [WalkRes.underDir_out, WalkRes.underDir_entries, hmap]
    exact h.1
  · simp [h.2]

/-- One file's contribution has the output shape. -/
theorem outShape_fileRes (c : EffConfig) (dr : String) (f : FileNode) :
    OutShape (fileRes c dr f) := by
  cases h : fileOutcome c (joinRel dr f.name) f <;>
    constructor <;>
      simp [fileRes, h, String.join, str_empty_append]

/-- A directory's file pass has the output shape. -/
theorem outShape_processFiles (c : EffConfig) (dr : String) (fs : List FileNode) :
    OutShape (processFiles c dr fs) := by
  induction fs with
  | nil => exact outShape_empty
  | cons f fs ih => exact outShape_app (outShape_fileRes c dr f) ih

/-- The pruning pass produces no output and no entries. -/
theorem outShape_pruneRes (c : EffConfig) (dr : String) :
    ∀ l : SubdirList, OutShape (pruneRes c dr l)
  | .nil => outShape_empty
  | .cons n t rest => by
    have ih := outShape_pruneRes c dr rest
    refine outShape_app ?_ ih
    split <;> exact ⟨rfl, rfl⟩

mutual
/-- The whole walk has the output shape. -/
theorem outShape_walkDir (c : EffConfig) (dr : String) :
    ∀ t : DirTree, OutShape (walkDir c dr t)
  | .node subs files => by
    have h1 := outShape_walkSubs c dr subs
    exact outShape_app ⟨rfl, rfl⟩
      (outShape_app (outShape_pruneRes c dr subs)
        (outShape_app (outShape_processFiles c dr files) h1))
/-- The subdirectory descent has the output shape. -/
theorem outShape_walkSubs (c : EffConfig) (dr : String) :
    ∀ l : SubdirList, OutShape (walkSubs c dr l)
  | .nil => outShape_empty
  | .cons n t rest => by
    have h1 := outShape_walkDir c (joinRel dr n) t
    have h2 := outShape_walkSubs c dr rest
    refine outShape_app ?_ h2
    split
    · exact outShape_empty
    · exact outShape_under n h1
end

/-- Unfolding of `relAlong` on an empty component path. -/
@[simp] theorem relAlong_nil (dr : String) : relAlong dr [] = dr := rfl

/-- Unfolding of `relAlong` on a component-path head. -/
@[simp] theorem relAlong_cons (dr n : String) (cc : List String) :
    relAlong dr (n :: cc) = relAlong (joinRel dr n) cc := rfl

/-- A `processed` outcome pins down all the pipeline's decisions: the passed
relative path is returned, the file was not excluded, it passed the text
check, and its content read succeeded. -/
theorem fileOutcome_processed_inv (c : EffConfig) (rel : String) (f : FileNode)
    (r content : String) (h : fileOutcome c rel f = .processed r content) :
    r = rel ∧ file_is_excluded c rel f.name = false ∧
      (is_likely_text_file f).1 = true ∧ f.fullRead = some content := by
  unfold fileOutcome at h
  by_cases h1 : (c.inclusion_mode && !(should_consider c rel f.name)) = true
  · rw [if_pos h1] at h
    cases h
  · rw [if_neg h1] at h
    by_cases h2 : file_is_excluded c rel f.name
    · rw [if_pos h2] at h
      cases h
    · rw [if_neg h2] at h
      by_cases h3 : (is_likely_text_file f).1 = true
      · rw [if_pos h3] at h
        cases hfr : f.fullRead with
        | none => rw [hfr] at h; cases h
        | some cnt =>
          rw [hfr] at h
          cases h
          exact ⟨rfl, by simpa using h2, h3, rfl⟩
      · rw [if_neg h3] at h
        cases h

/-- Entry invariant: every produced entry passed the exclusion check, its
relative path is the rendering of its component path below the walk's start,
and its component path ends in its bare name. -/
def EntriesOk (c : EffConfig) (dr : String) (r : WalkRes) : Prop :=
  ∀ e ∈ r.entries, file_is_excluded c e.rel e.name = false ∧
    e.rel = relAlong dr e.comps ∧ ∃ pre, e.comps = pre ++ [e.name]

/-- The empty result satisfies the entry invariant. -/
theorem entriesOk_empty (c : EffConfig) (dr : String) : EntriesOk c dr WalkRes.empty := by
  intro e he
  cases he

/-- Composition preserves the entry invariant. -/
theorem entriesOk_app {c : EffConfig} {dr : String} {a b : WalkRes}
    (ha : EntriesOk c dr a) (hb : EntriesOk c dr b) : EntriesOk c dr (a.app b) := by
  intro e he
  rw [WalkRes.app_entries, List.mem_append] at he
  rcases he with he | he
  · exact ha e he
  · exact hb e he

/-- Re-rooting below a subdirectory moves the invariant's base directory up
to the parent. -/
theorem entriesOk_under {c : EffConfig} {dr n : String} {r : WalkRes}
    (h : EntriesOk c (joinRel dr n) r) : EntriesOk c dr (r.underDir n) := by
  intro e he
  rw [WalkRes.underDir_entries, List.mem_map] at he
  obtain ⟨e0, he0, rfl⟩ := he
  obtain ⟨h1, h2, pre, h3⟩ := h e0 he0
  exact ⟨h1, by simpa using h2, n :: pre, by simp [h3]⟩

/-- One file's contribution satisfies the entry invariant. -/
theorem entriesOk_fileRes (c : EffConfig) (dr : String) (f : FileNode) :
    EntriesOk c dr (fileRes c dr f) := by
  intro e he
  rw [fileRes] at he
  cases h : fileOutcome c (joinRel dr f.name) f <;> rw [h] at he
  case notIncluded => cases he
  case excludedFile => cases he
  case binary => cases he
  case readError => cases he
  case processed r content =>
    obtain ⟨hr, hex, htx, hfr⟩ := fileOutcome_processed_inv c _ f r content h
    have he' : e = ⟨r, f.name, content, [f.name]⟩ := by
      simpa using he
    subst he'
    subst hr
    exact ⟨hex, rfl, [], rfl⟩

/-- A directory's file pass satisfies the entry invariant. -/
theorem entriesOk_processFiles (c : EffConfig) (dr : String) (fs : List FileNode) :
    EntriesOk c dr (processFiles c dr fs) := by
  induction fs with
  | nil => exact entriesOk_empty c dr
  | cons f fs ih => exact entriesOk_app (entriesOk_fileRes c dr f) ih

/-- The pruning pass satisfies the entry invariant (it has no entries). -/
theorem entriesOk_pruneRes (c : EffConfig) (dr : String) :
    ∀ l : SubdirList, EntriesOk c dr (pruneRes c dr l)
  | .nil => entriesOk_empty c dr
  | .cons n t rest => by
    have ih := entriesOk_pruneRes c dr rest
    refine entriesOk_app ?_ ih
    intro e he
    split at he <;> cases he

mutual
/-- Every entry of a walk satisfies the entry invariant. -/
theorem entriesOk_walkDir (c : EffConfig) (dr : String) :
    ∀ t : DirTree, EntriesOk c dr (walkDir c dr t)
  | .node subs files => by
    have h1 := entriesOk_walkSubs c dr subs
    refine entriesOk_app ?_ (entriesOk_app (entriesOk_pruneRes c dr subs)
      (entriesOk_app (entriesOk_processFiles c dr files) h1))
    intro e he
    cases he
/-- Every entry of the subdirectory descent satisfies the entry invariant. -/
theorem entriesOk_walkSubs (c : EffConfig) (dr : String) :
    ∀ l : SubdirList, EntriesOk c dr (walkSubs c dr l)
  | .nil => entriesOk_empty c dr
  | .cons n t rest => by
    have h1 := entriesOk_walkDir c (joinRel dr n) t
    have h2 := entriesOk_walkSubs c dr rest
    refine entriesOk_app ?_ h2
    split
    · exact entriesOk_empty c dr
    · exact entriesOk_under h1
end

/-- Membership in a list survives appending on the right. -/
theorem contains_append_left (l l' : List String) (a : String)
    (h : l.contains a = true) : (l ++ l').contains a = true := by
  rw [List.elem_iff] at h ⊢
  exact List.mem_append_left _ h

/-- Unfolding of the effective exclusion set. -/
theorem effConfig_exclude_files (c : Config) (sn : String) :
    (effConfig c sn).exclude_files =
      if c.exclude_files.contains sn then c.exclude_files
      else c.exclude_files ++ [sn] := rfl

/-- Unfolding of the effective combined pattern list. -/
theorem effConfig_combined (c : Config) (sn : String) :
    (effConfig c sn).combined =
      if (combined_exclude_patterns c).contains sn then combined_exclude_patterns c
      else combined_exclude_patterns c ++ [sn] := rfl

/-- Registering the summary file only adds to the caller's exclusions: any
path excluded by the caller's configuration is excluded by the effective
one. -/
theorem file_is_excluded_mono (c : Config) (sn rel name : String)
    (h : spec_file_excluded c rel name = true) :
    file_is_excluded (effConfig c sn) rel name = true := by
  unfold spec_file_excluded at h
  unfold file_is_excluded
  rw [effConfig_exclude_files, effConfig_combined]
  simp only [Bool.or_eq_true] at h ⊢
  rcases h with (h | h) | h
  · refine Or.inl (Or.inl ?_)
    split
    · exact h
    · exact contains_append_left _ _ _ h
  · refine Or.inl (Or.inr ?_)
    split
    · exact h
    · exact contains_append_left _ _ _ h
  · refine Or.inr ?_
    rw [List.any_eq_true] at h ⊢
    obtain ⟨pat, hm, hp⟩ := h
    refine ⟨pat, ?_, hp⟩
    split
    · exact hm
    · exact List.mem_append_left _ hm

/-- The summary file's normalized path is in both effective exclusion sets. -/
theorem effConfig_registers_summary (c : Config) (sn : String) :
    (effConfig c sn).exclude_files.contains sn = true ∧
    (effConfig c sn).combined.contains sn = true := by
  rw [effConfig_exclude_files, effConfig_combined]
  constructor
  · split
    · assumption
    · rw [List.elem_iff]
      exact List.mem_append_right _ (List.mem_singleton.mpr rfl)
  · split
    · assumption
    · rw [List.elem_iff]
      exact List.mem_append_right _ (List.mem_singleton.mpr rfl)

/-- Claim C2: no produced entry satisfies the claim's exclusion condition
(exact membership of its relative path or bare name in `excludeFiles`, or a
match against any pattern of the combined exclude-pattern set); hence a file
matching any exclude rule never appears in the output, regardless of
inclusion rules. -/
theorem exclusion_dominates (c : Config) (ofn sd : String) (tree : DirTree)
    (r : WalkRes) (h : create_summary ofn sd c tree true = .ok r) :
    ∀ e ∈ r.entries, spec_file_excluded c e.rel e.name = false := by
  have hr : r = walkDir (effConfig c (normalize_path (normpath (pyJoin sd ofn)))) "" tree := by
    simpa [create_summary] using h.symm
  subst hr
  intro e he
  have hex := (entriesOk_walkDir _ "" tree e he).1
  by_contra hcon
  rw [Bool.not_eq_false] at hcon
  rw [file_is_excluded_mono c _ e.rel e.name hcon] at hex
  cases hex

/-- Witness for C2 at a concrete pattern-excluding run. -/
theorem exclusion_dominates_witness :
    spec_file_excluded exCfgW "a.txt" "a.txt" = false :=
  exclusion_dominates exCfgW "out.txt" "." exTreeW _ rfl
    ⟨"a.txt", "a.txt", "hello", ["a.txt"]⟩ (by decide)

/-- Claim C7: before the walk begins the output file's normalized path is a
member of the effective `exclude_files` and of the combined exclude
patterns, and consequently no entry of the produced output has it as its
relative path or bare name — the output file never includes itself, also
when it lies inside the scanned root. -/
theorem summary_self_exclusion (c : Config) (ofn sd sn : String) (tree : DirTree)
    (r : WalkRes) (hsn : sn = normalize_path (normpath (pyJoin sd ofn)))
    (h : create_summary ofn sd c tree true = .ok r) :
    (effConfig c sn).exclude_files.contains sn = true ∧
    (effConfig c sn).combined.contains sn = true ∧
    ∀ e ∈ r.entries, e.rel ≠ sn ∧ e.name ≠ sn := by
  subst hsn
  refine ⟨(effConfig_registers_summary c _).1, (effConfig_registers_summary c _).2, ?_⟩
  have hr : r = walkDir (effConfig c (normalize_path (normpath (pyJoin sd ofn)))) "" tree := by
    simpa [create_summary] using h.symm
  subst hr
  intro e he
  have hex := (entriesOk_walkDir _ "" tree e he).1
  unfold file_is_excluded at hex
  simp only [Bool.or_eq_false_iff] at hex
  obtain ⟨⟨hx, hy⟩, -⟩ := hex
  have h1 := (effConfig_registers_summary c (normalize_path (normpath (pyJoin sd ofn)))).1
  constructor
  · intro hrel
    rw [hrel, h1] at hx
    cases hx
  · intro hname
    rw [hname, h1] at hy
    cases hy

/-- Witness for C7: with the CLI's start directory `.` and a stale copy of
the output file in the root, the produced `a.txt` entry does not carry the
output file's path or name. -/
theorem summary_self_exclusion_witness :
    (⟨"a.txt", "a.txt", "hi", ["a.txt"]⟩ : Entry).rel ≠ "out.txt" ∧
    (⟨"a.txt", "a.txt", "hi", ["a.txt"]⟩ : Entry).name ≠ "out.txt" :=
  (summary_self_exclusion emptyConfigW "out.txt" "." "out.txt" selfTreeW _
    (by decide) rfl).2.2 ⟨"a.txt", "a.txt", "hi", ["a.txt"]⟩ (by decide)

/-- Each file increments exactly one of the two file counters. -/
theorem fileRes_counts (c : EffConfig) (dr : String) (f : FileNode) :
    (fileRes c dr f).processed_files_count + (fileRes c dr f).skipped_files_count = 1 := by
  cases h : fileOutcome c (joinRel dr f.name) f <;> simp [fileRes, h]

/-- A directory's file pass partitions its files between the two counters. -/
theorem processFiles_counts (c : EffConfig) (dr : String) (fs : List FileNode) :
    (processFiles c dr fs).processed_files_count
      + (processFiles c dr fs).skipped_files_count = fs.length := by
  induction fs with
  | nil => rfl
  | cons f fs ih =>
    have h1 := fileRes_counts c dr f
    simp only [processFiles, WalkRes.app_processed, WalkRes.app_skipped, List.length_cons]
    omega

/-- The pruning pass records one pruned directory per counter increment and
touches no file counter. -/
theorem pruneRes_counts (c : EffConfig) (dr : String) :
    ∀ l : SubdirList,
      (pruneRes c dr l).prunedDirs.length = (pruneRes c dr l).skipped_dirs_count ∧
      (pruneRes c dr l).processed_files_count = 0 ∧
      (pruneRes c dr l).skipped_files_count = 0
  | .nil => ⟨rfl, rfl, rfl⟩
  | .cons n t rest => by
    have ih := pruneRes_counts c dr rest
    simp only [pruneRes, WalkRes.app_prunedDirs, WalkRes.app_skipped_dirs,
      WalkRes.app_processed, WalkRes.app_skipped, List.length_append]
    split <;> simp <;> omega

/-- The file pass of a directory touches no directory bookkeeping. -/
theorem processFiles_no_dirs (c : EffConfig) (dr : String) (fs : List FileNode) :
    (processFiles c dr fs).skipped_dirs_count = 0 ∧
    (processFiles c dr fs).prunedDirs = [] := by
  induction fs with
  | nil => exact ⟨rfl, rfl⟩
  | cons f fs ih =>
    have hf : (fileRes c dr f).skipped_dirs_count = 0 ∧ (fileRes c dr f).prunedDirs = [] := by
      cases h : fileOutcome c (joinRel dr f.name) f <;> simp [fileRes, h]
    simp only [processFiles, WalkRes.app_skipped_dirs, WalkRes.app_prunedDirs]
    rw [hf.1, hf.2, ih.1, ih.2]
    exact ⟨rfl, rfl⟩

mutual
/-- Counter partition for a whole directory walk: the two file counters
partition the files of visited directories, the pruned-directory counter
equals the number of pruning decisions, and the recorded pruned directories
match their counter. -/
theorem counts_walkDir (c : EffConfig) (dr : String) :
    ∀ t : DirTree,
      (walkDir c dr t).processed_files_count + (walkDir c dr t).skipped_files_count
          = reachedFilesCount c dr t ∧
      (walkDir c dr t).skipped_dirs_count = prunedDecisionCount c dr t ∧
      (walkDir c dr t).prunedDirs.length = (walkDir c dr t).skipped_dirs_count
  | .node subs files => by
    obtain ⟨hs1, hs2, hs3⟩ := counts_walkSubs c dr subs
    have hfiles := processFiles_counts c dr files
    obtain ⟨hp1, hp2, hp3⟩ := pruneRes_counts c dr subs
    obtain ⟨hn1, hn2⟩ := processFiles_no_dirs c dr files
    have hnd2 : (processFiles c dr files).prunedDirs.length = 0 := by
      rw [hn2]
      rfl
    simp only [walkDir, WalkRes.app_processed, WalkRes.app_skipped,
      WalkRes.app_skipped_dirs, WalkRes.app_prunedDirs, List.length_append,
      List.length_nil, reachedFilesCount, prunedDecisionCount]
    refine ⟨?_, ?_, ?_⟩ <;> omega
/-- Counter partition for the subdirectory listing: files below surviving
children are partitioned, and together with this listing's pruning pass the
pruning decisions are counted exactly once each. -/
theorem counts_walkSubs (c : EffConfig) (dr : String) :
    ∀ l : SubdirList,
      (walkSubs c dr l).processed_files_count + (walkSubs c dr l).skipped_files_count
          = reachedFilesSubs c dr l ∧
      (pruneRes c dr l).skipped_dirs_count + (walkSubs c dr l).skipped_dirs_count
          = prunedDecisionSubs c dr l ∧
      (walkSubs c dr l).prunedDirs.length = (walkSubs c dr l).skipped_dirs_count
  | .nil => ⟨rfl, rfl, rfl⟩
  | .cons n t rest => by
    obtain ⟨ih1, ih2, ih3⟩ := counts_walkSubs c dr rest
    obtain ⟨ihd1, ihd2, ihd3⟩ := counts_walkDir c (joinRel dr n) t
    simp only [walkSubs, pruneRes, WalkRes.app_processed, WalkRes.app_skipped,
      WalkRes.app_skipped_dirs, WalkRes.app_prunedDirs, List.length_append,
      reachedFilesSubs, prunedDecisionSubs]
    by_cases hx : dir_is_excluded c (joinRel dr n) n = true
    · simp only [hx, if_true]
      simp only [WalkRes.empty, List.length_nil]
      refine ⟨?_, ?_, ?_⟩ <;> omega
    · simp only [hx, Bool.false_eq_true, if_false]
      simp only [WalkRes.empty, WalkRes.underDir, List.length_map, List.length_nil]
      refine ⟨?_, ?_, ?_⟩ <;> omega
end

/-- Claim C10: in a completed run, the processed and skipped file counters
partition exactly the files enumerated in visited (non-pruned) directories,
the pruned-directory counter counts each pruning decision exactly once, and
the recorded pruned directories match their counter. -/
theorem counters_partition (c : Config) (ofn sd : String) (tree : DirTree)
    (eff : EffConfig) (r : WalkRes)
    (heff : eff = effConfig c (normalize_path (normpath (pyJoin sd ofn))))
    (h : create_summary ofn sd c tree true = .ok r) :
    r.processed_files_count + r.skipped_files_count = reachedFilesCount eff "" tree ∧
    r.skipped_dirs_count = prunedDecisionCount eff "" tree ∧
    r.prunedDirs.length = r.skipped_dirs_count := by
  subst heff
  have hr : r = walkDir (effConfig c (normalize_path (normpath (pyJoin sd ofn)))) "" tree := by
    simpa [create_summary] using h.symm
  subst hr
  exact counts_walkDir _ "" tree

/-- Witness for C10 on a run that prunes one directory. -/
theorem counters_partition_witness :
    (walkDir (effConfig pruneCfgW (normalize_path (normpath (pyJoin "." "out.txt")))) ""
        treeW).processed_files_count
      + (walkDir (effConfig pruneCfgW (normalize_path (normpath (pyJoin "." "out.txt")))) ""
        treeW).skipped_files_count
      = reachedFilesCount (effConfig pruneCfgW (normalize_path (normpath (pyJoin "." "out.txt"))))
          "" treeW ∧
    (walkDir (effConfig pruneCfgW (normalize_path (normpath (pyJoin "." "out.txt")))) ""
        treeW).skipped_dirs_count
      = prunedDecisionCount (effConfig pruneCfgW (normalize_path (normpath (pyJoin "." "out.txt"))))
          "" treeW ∧
    (walkDir (effConfig pruneCfgW (normalize_path (normpath (pyJoin "." "out.txt")))) ""
        treeW).prunedDirs.length
      = (walkDir (effConfig pruneCfgW (normalize_path (normpath (pyJoin "." "out.txt")))) ""
        treeW).skipped_dirs_count :=
  counters_partition pruneCfgW "out.txt" "." treeW _ _ rfl rfl

/-- String concatenation is associative. -/
theorem str_append_assoc (a b c : String) : (a ++ b) ++ c = a ++ (b ++ c) := by
  apply String.ext
  simp

/-- The empty walk result is a left identity for composition. -/
theorem WalkRes.empty_app (b : WalkRes) : WalkRes.empty.app b = b := by
  cases b
  simp [WalkRes.app, WalkRes.empty, str_empty_append]

/-- Walk-result composition is associative. -/
theorem WalkRes.app_assoc (a b c : WalkRes) : (a.app b).app c = a.app (b.app c) := by
  cases a
  cases b
  cases c
  simp [WalkRes.app, str_append_assoc, Nat.add_assoc]

/-- Processing a concatenation of file listings composes the results: the
run continues past any single file. -/
theorem processFiles_append (c : EffConfig) (dr : String) (l1 l2 : List FileNode) :
    processFiles c dr (l1 ++ l2) = (processFiles c dr l1).app (processFiles c dr l2) := by
  induction l1 with
  | nil => rw [List.nil_append, processFiles, WalkRes.empty_app]
  | cons f fs ih =>
    rw [List.cons_append, processFiles, processFiles, ih, WalkRes.app_assoc]

/-- A file that passed every filter and the text check but whose content
read fails gets the `readError` outcome. -/
theorem fileOutcome_readError_of (cE : EffConfig) (rel : String) (f : FileNode)
    (h1 : (cE.inclusion_mode && !(should_consider cE rel f.name)) = false)
    (h2 : file_is_excluded cE rel f.name = false)
    (h3 : (is_likely_text_file f).1 = true)
    (h4 : f.fullRead = none) :
    fileOutcome cE rel f = .readError := by
  unfold fileOutcome
  rw [h1, h2, h4]
  simp [h3]

/-- Claim C8: the run aborts, with nothing processed, exactly when the
output stream cannot be opened (the error carries the output path); and a
per-file content-read failure on an already-accepted file only skips that
file, with a warning, producing no entry and no output bytes, while the
files before and after it are processed independently. -/
theorem error_handling (c : Config) (ofn sd : String) (tree : DirTree) :
    (create_summary ofn sd c tree false
        = .error ("Error opening or writing summary file " ++ ofn)) ∧
    (∃ r, create_summary ofn sd c tree true = .ok r) ∧
    (∀ (cE : EffConfig) (dr : String) (fs1 fs2 : List FileNode) (f : FileNode),
      (cE.inclusion_mode && !(should_consider cE (joinRel dr f.name) f.name)) = false →
      file_is_excluded cE (joinRel dr f.name) f.name = false →
      (is_likely_text_file f).1 = true →
      f.fullRead = none →
      fileOutcome cE (joinRel dr f.name) f = .readError ∧
      (fileRes cE dr f).entries = [] ∧
      (fileRes cE dr f).out = "" ∧
      (fileRes cE dr f).skipped_files_count = 1 ∧
      (fileRes cE dr f).warnings = 1 ∧
      processFiles cE dr (fs1 ++ f :: fs2)
        = (processFiles cE dr fs1).app ((fileRes cE dr f).app (processFiles cE dr fs2))) := by
  refine ⟨rfl, ⟨_, rfl⟩, ?_⟩
  intro cE dr fs1 fs2 f h1 h2 h3 h4
  have ho := fileOutcome_readError_of cE (joinRel dr f.name) f h1 h2 h3 h4
  refine ⟨ho, ?_, ?_, ?_, ?_, ?_⟩
  · simp [fileRes, ho]
  · simp [fileRes, ho]
  · simp [fileRes, ho]
  · simp [fileRes, ho]
  · rw [processFiles_append, processFiles]

/-- Witness for C8 at a concrete run and a concrete flaky file. -/
theorem error_handling_witness :
    fileOutcome (effConfig emptyConfigW "out.txt") "" readErrFileW = .readError :=
  ((error_handling emptyConfigW "out.txt" "." flakyTreeW).2.2
    (effConfig emptyConfigW "out.txt") "" [] [] readErrFileW
    (by decide) (by decide) (by decide) rfl).1

/-- A file that passes every filter, the text check and its content read is
processed. -/
theorem fileOutcome_processed_of (cE : EffConfig) (rel : String) (f : FileNode)
    (content : String)
    (h1 : (cE.inclusion_mode && !(should_consider cE rel f.name)) = false)
    (h2 : file_is_excluded cE rel f.name = false)
    (h3 : (is_likely_text_file f).1 = true)
    (h4 : f.fullRead = some content) :
    fileOutcome cE rel f = .processed rel content := by
  unfold fileOutcome
  rw [h1, h2, h4]
  simp [h3]

/-- A processed file in a directory listing yields its entry. -/
theorem processFiles_mem_of (c : EffConfig) (dr : String) (fs : List FileNode)
    (f : FileNode) (content : String) (hf : f ∈ fs)
    (ho : fileOutcome c (joinRel dr f.name) f = .processed (joinRel dr f.name) content) :
    (⟨joinRel dr f.name, f.name, content, [f.name]⟩ : Entry)
      ∈ (processFiles c dr fs).entries := by
  induction fs with
  | nil => cases hf
  | cons g gs ih =>
    rw [processFiles, WalkRes.app_entries, List.mem_append]
    rcases List.mem_cons.mp hf with rfl | hf'
    · left
      simp [fileRes, ho]
    · right
      exact ih hf'

/-- An entry of a surviving subdirectory's walk survives, re-rooted, into the
parent's subdirectory descent. -/
theorem walkSubs_mem_of (c : EffConfig) (dr : String) (l : SubdirList) (n : String)
    (t : DirTree) (hm : SubMem l n t)
    (hok : dir_is_excluded c (joinRel dr n) n = false) (e : Entry)
    (he : e ∈ (walkDir c (joinRel dr n) t).entries) :
    (⟨e.rel, e.name, e.content, n :: e.comps⟩ : Entry) ∈ (walkSubs c dr l).entries := by
  induction hm with
  | head n t rest =>
    rw [walkSubs, WalkRes.app_entries, List.mem_append]
    left
    rw [hok]
    simp only [Bool.false_eq_true, if_false, WalkRes.underDir_entries, List.mem_map]
    exact ⟨e, he, rfl⟩
  | tail n' t' hm' ih =>
    rw [walkSubs, WalkRes.app_entries, List.mem_append]
    right
    exact ih hok he

/-- Completeness of the walk: every reachable file whose pipeline outcome is
`processed` contributes its entry. -/
theorem walkDir_mem_of (c : EffConfig) (dr : String) (t : DirTree)
    (comps : List String) (f : FileNode) (content : String)
    (hr : FileReachable c dr t comps f)
    (ho : fileOutcome c (joinRel (relAlong dr comps) f.name) f
        = .processed (joinRel (relAlong dr comps) f.name) content) :
    (⟨joinRel (relAlong dr comps) f.name, f.name, content, comps ++ [f.name]⟩ : Entry)
      ∈ (walkDir c dr t).entries := by
  induction hr with
  | here hf =>
    rw [walkDir, WalkRes.app_entries, WalkRes.app_entries, WalkRes.app_entries]
    simp only [List.mem_append]
    right; right; left
    exact processFiles_mem_of c _ _ _ _ hf ho
  | there hm hok hr' ih =>
    rw [walkDir, WalkRes.app_entries, WalkRes.app_entries, WalkRes.app_entries]
    simp only [List.mem_append]
    right; right; right
    have := walkSubs_mem_of c _ _ _ _ hm hok _ (ih ho)
    simpa using this

/-- The pruning decision reads only the exclusion fields. -/
theorem dir_is_excluded_congr (c1 c2 : EffConfig)
    (hd : c1.exclude_dirs = c2.exclude_dirs) (hc : c1.combined = c2.combined)
    (rel name : String) :
    dir_is_excluded c1 rel name = dir_is_excluded c2 rel name := by
  unfold dir_is_excluded
  rw [hd, hc]

/-- The file-exclusion decision reads only the exclusion fields. -/
theorem file_is_excluded_congr (c1 c2 : EffConfig)
    (hf : c1.exclude_files = c2.exclude_files) (hc : c1.combined = c2.combined)
    (rel name : String) :
    file_is_excluded c1 rel name = file_is_excluded c2 rel name := by
  unfold file_is_excluded
  rw [hf, hc]

/-- With inclusion mode off, the per-file pipeline ignores the include
fields. -/
theorem fileOutcome_congr_off (c1 c2 : EffConfig)
    (hf : c1.exclude_files = c2.exclude_files) (hc : c1.combined = c2.combined)
    (hm1 : c1.inclusion_mode = false) (hm2 : c2.inclusion_mode = false)
    (rel : String) (f : FileNode) :
    fileOutcome c1 rel f = fileOutcome c2 rel f := by
  unfold fileOutcome
  rw [hm1, hm2, file_is_excluded_congr c1 c2 hf hc]
  simp

/-- With inclusion mode off, a file's walk contribution ignores the include
fields. -/
theorem fileRes_congr_off (c1 c2 : EffConfig)
    (hf : c1.exclude_files = c2.exclude_files) (hc : c1.combined = c2.combined)
    (hm1 : c1.inclusion_mode = false) (hm2 : c2.inclusion_mode = false)
    (dr : String) (f : FileNode) :
    fileRes c1 dr f = fileRes c2 dr f := by
  simp only [fileRes]
  rw [fileOutcome_congr_off c1 c2 hf hc hm1 hm2, hm1, hm2]

/-- With inclusion mode off, the file pass ignores the include fields. -/
theorem processFiles_congr_off (c1 c2 : EffConfig)
    (hf : c1.exclude_files = c2.exclude_files) (hc : c1.combined = c2.combined)
    (hm1 : c1.inclusion_mode = false) (hm2 : c2.inclusion_mode = false)
    (dr : String) (fs : List FileNode) :
    processFiles c1 dr fs = processFiles c2 dr fs := by
  induction fs with
  | nil => rfl
  | cons f fs ih =>
    rw [processFiles, processFiles, ih, fileRes_congr_off c1 c2 hf hc hm1 hm2]

/-- The pruning pass ignores the include fields. -/
theorem pruneRes_congr (c1 c2 : EffConfig)
    (hd : c1.exclude_dirs = c2.exclude_dirs) (hc : c1.combined = c2.combined)
    (dr : String) : ∀ l : SubdirList, pruneRes c1 dr l = pruneRes c2 dr l
  | .nil => rfl
  | .cons n t rest => by
    have ih := pruneRes_congr c1 c2 hd hc dr rest
    rw [pruneRes, pruneRes, ih, dir_is_excluded_congr c1 c2 hd hc]

mutual
/-- With inclusion mode off, the whole walk ignores the include fields:
the inclusion phase is never consulted. -/
theorem walkDir_congr_off (c1 c2 : EffConfig)
    (hd : c1.exclude_dirs = c2.exclude_dirs) (hf : c1.exclude_files = c2.exclude_files)
    (hc : c1.combined = c2.combined)
    (hm1 : c1.inclusion_mode = false) (hm2 : c2.inclusion_mode = false) (dr : String) :
    ∀ t : DirTree, walkDir c1 dr t = walkDir c2 dr t
  | .node subs files => by
    have h1 := walkSubs_congr_off c1 c2 hd hf hc hm1 hm2 dr subs
    rw [walkDir, walkDir, h1, processFiles_congr_off c1 c2 hf hc hm1 hm2,
      pruneRes_congr c1 c2 hd hc]
/-- With inclusion mode off, the subdirectory descent ignores the include
fields. -/
theorem walkSubs_congr_off (c1 c2 : EffConfig)
    (hd : c1.exclude_dirs = c2.exclude_dirs) (hf : c1.exclude_files = c2.exclude_files)
    (hc : c1.combined = c2.combined)
    (hm1 : c1.inclusion_mode = false) (hm2 : c2.inclusion_mode = false) (dr : String) :
    ∀ l : SubdirList, walkSubs c1 dr l = walkSubs c2 dr l
  | .nil => rfl
  | .cons n t rest => by
    have h1 := walkDir_congr_off c1 c2 hd hf hc hm1 hm2 (joinRel dr n) t
    have h2 := walkSubs_congr_off c1 c2 hd hf hc hm1 hm2 dr rest
    rw [walkSubs, walkSubs, h1, h2, dir_is_excluded_congr c1 c2 hd hc]
end

/-- The claim's theorem for C4 after amendment: with inclusion mode off,
every file lying in a non-pruned directory (`FileReachable`), matching no
exclude rule, passing the text-likelihood check, and whose content read
succeeds, appears in the output; and the walk result is unchanged under any
substitution of the include fields — the inclusion phase is never
consulted. -/
theorem default_allow_all_amended
    (c : Config) (ofn sd : String) (tree : DirTree) (eff : EffConfig) (r : WalkRes)
    (heff : eff = effConfig c (normalize_path (normpath (pyJoin sd ofn))))
    (h : create_summary ofn sd c tree true = .ok r)
    (hmode : c.inclusion_mode = false)
    (comps : List String) (f : FileNode) (content : String)
    (hreach : FileReachable eff "" tree comps f)
    (hnotex : file_is_excluded eff (joinRel (relAlong "" comps) f.name) f.name = false)
    (htext : (is_likely_text_file f).1 = true)
    (hread : f.fullRead = some content) :
    (⟨joinRel (relAlong "" comps) f.name, f.name, content, comps ++ [f.name]⟩ : Entry)
        ∈ r.entries ∧
    ∀ incD incF incP : List String,
      walkDir ⟨incD, incF, incP, eff.exclude_dirs, eff.exclude_files, eff.combined,
        false⟩ "" tree = walkDir eff "" tree := by
  have hmode' : eff.inclusion_mode = false := by
    rw [heff]
    exact hmode
  subst heff
  have hr : r = walkDir (effConfig c (normalize_path (normpath (pyJoin sd ofn)))) "" tree := by
    simpa [create_summary] using h.symm
  subst hr
  constructor
  · refine walkDir_mem_of _ "" tree comps f content hreach ?_
    refine fileOutcome_processed_of _ _ f content ?_ hnotex htext hread
    rw [hmode']
    rfl
  · intro incD incF incP
    apply walkDir_congr_off
    · rfl
    · rfl
    · rfl
    · rfl
    · exact hmode'

/-- Counterexample for C4 as stated: a file that lies in the (non-pruned)
root, matches no exclude rule and passes the text-likelihood check, yet does
not appear in the output because its content read fails. -/
theorem default_allow_all_counterexample :
    (is_likely_text_file readErrFileW).1 = true ∧
    file_is_excluded (effConfig emptyConfigW "out.txt") "flaky.txt" "flaky.txt" = false ∧
    (walkDir (effConfig emptyConfigW "out.txt") "" flakyTreeW).entries = [] := by
  refine ⟨by decide, by decide, by decide⟩

/-- Witness for C4's amended theorem at a concrete readable file. -/
theorem default_allow_all_witness :
    (⟨joinRel (relAlong "" []) (plainFileW "a.txt" "hello").name,
      (plainFileW "a.txt" "hello").name, "hello",
      [] ++ [(plainFileW "a.txt" "hello").name]⟩ : Entry)
      ∈ (walkDir (effConfig emptyConfigW (normalize_path (normpath (pyJoin "." "out.txt"))))
          "" treeW).entries :=
  (default_allow_all_amended emptyConfigW "out.txt" "." treeW _ _ rfl rfl rfl
    [] (plainFileW "a.txt" "hello") "hello"
    (FileReachable.here (by decide)) (by decide) (by decide) rfl).1

/-- Dropping the last element commutes with a cons on a non-empty tail. -/
theorem dropLast_cons_of_ne_nil (n : String) (l : List String) (h : l ≠ []) :
    (n :: l).dropLast = n :: l.dropLast := by
  cases l with
  | nil => exact absurd rfl h
  | cons a l' => rfl

/-- Every recorded pruned name of a listing's pruning pass is a child of the
listing with a positive pruning decision. -/
theorem pruneRes_mem (c : EffConfig) (dr : String) :
    ∀ l : SubdirList, ∀ P ∈ (pruneRes c dr l).prunedDirs,
      ∃ n, P = [n] ∧ n ∈ subNames l ∧ dir_is_excluded c (joinRel dr n) n = true
  | .nil => by
    intro P hP
    cases hP
  | .cons n t rest => by
    intro P hP
    have ih := pruneRes_mem c dr rest
    rw [pruneRes, WalkRes.app_prunedDirs, List.mem_append] at hP
    rcases hP with hP | hP
    · by_cases hx : dir_is_excluded c (joinRel dr n) n = true
      · rw [if_pos hx] at hP
        have hP' : P = [n] := by simpa using hP
        exact ⟨n, hP', by simp [subNames], hx⟩
      · rw [if_neg hx] at hP
        cases hP
    · obtain ⟨m, h1, h2, h3⟩ := ih P hP
      exact ⟨m, h1, by simp [subNames, h2], h3⟩

/-- Every child of a listing with a positive pruning decision is recorded as
pruned. -/
theorem pruneRes_mem_of (c : EffConfig) (dr : String) :
    ∀ l : SubdirList, ∀ n, n ∈ subNames l → dir_is_excluded c (joinRel dr n) n = true →
      [n] ∈ (pruneRes c dr l).prunedDirs
  | .nil => by
    intro n hn
    cases hn
  | .cons m t rest => by
    intro n hn hx
    have ih := pruneRes_mem_of c dr rest
    rw [pruneRes, WalkRes.app_prunedDirs, List.mem_append]
    rcases List.mem_cons.mp hn with rfl | hn'
    · left
      rw [if_pos hx]
      simp
    · right
      exact ih n hn' hx

/-- Every element produced below a subdirectory listing is headed by a
surviving (not pruned) child name. -/
theorem walkSubs_shape (c : EffConfig) (dr : String) :
    ∀ l : SubdirList,
      (∀ e ∈ (walkSubs c dr l).entries, ∃ n cc, n ∈ subNames l ∧
          dir_is_excluded c (joinRel dr n) n = false ∧ e.comps = n :: cc ∧ cc ≠ []) ∧
      (∀ V ∈ (walkSubs c dr l).visited, ∃ n V', n ∈ subNames l ∧
          dir_is_excluded c (joinRel dr n) n = false ∧ V = n :: V') ∧
      (∀ P ∈ (walkSubs c dr l).prunedDirs, ∃ n P', n ∈ subNames l ∧
          dir_is_excluded c (joinRel dr n) n = false ∧ P = n :: P')
  | .nil => by
    refine ⟨?_, ?_, ?_⟩ <;> intro x hx <;> cases hx
  | .cons n t rest => by
    obtain ⟨ihE, ihV, ihP⟩ := walkSubs_shape c dr rest
    by_cases hx : dir_is_excluded c (joinRel dr n) n = true
    · refine ⟨?_, ?_, ?_⟩ <;> intro x hhx <;>
        rw [walkSubs, if_pos hx, WalkRes.empty_app] at hhx
      · obtain ⟨m, cc, h1, h2, h3, h4⟩ := ihE x hhx
        exact ⟨m, cc, by simp [subNames, h1], h2, h3, h4⟩
      · obtain ⟨m, V', h1, h2, h3⟩ := ihV x hhx
        exact ⟨m, V', by simp [subNames, h1], h2, h3⟩
      · obtain ⟨m, P', h1, h2, h3⟩ := ihP x hhx
        exact ⟨m, P', by simp [subNames, h1], h2, h3⟩
    · rw [Bool.not_eq_true] at hx
      refine ⟨?_, ?_, ?_⟩
      · intro e he
        rw [walkSubs, if_neg (by simp [hx]), WalkRes.app_entries, List.mem_append] at he
        rcases he with he | he
        · rw [WalkRes.underDir_entries, List.mem_map] at he
          obtain ⟨e0, he0, rfl⟩ := he
          obtain ⟨-, -, pre, hpre⟩ := entriesOk_walkDir c (joinRel dr n) t e0 he0
          refine ⟨n, e0.comps, by simp [subNames], hx, rfl, ?_⟩
          rw [hpre]
          simp
        · obtain ⟨m, cc, h1, h2, h3, h4⟩ := ihE e he
          exact ⟨m, cc, by simp [subNames, h1], h2, h3, h4⟩
      · intro V hV
        rw [walkSubs, if_neg (by simp [hx]), WalkRes.app_visited, List.mem_append] at hV
        rcases hV with hV | hV
        · rw [WalkRes.underDir_visited, List.mem_map] at hV
          obtain ⟨V0, hV0, rfl⟩ := hV
          exact ⟨n, V0, by simp [subNames], hx, rfl⟩
        · obtain ⟨m, V', h1, h2, h3⟩ := ihV V hV
          exact ⟨m, V', by simp [subNames, h1], h2, h3⟩
      · intro P hP
        rw [walkSubs, if_neg (by simp [hx]), WalkRes.app_prunedDirs, List.mem_append] at hP
        rcases hP with hP | hP
        · rw [WalkRes.underDir_prunedDirs, List.mem_map] at hP
          obtain ⟨P0, hP0, rfl⟩ := hP
          exact ⟨n, P0, by simp [subNames], hx, rfl⟩
        · obtain ⟨m, P', h1, h2, h3⟩ := ihP P hP
          exact ⟨m, P', by simp [subNames, h1], h2, h3⟩

/-- The file pass records no visits. -/
theorem processFiles_no_visited (c : EffConfig) (dr : String) (fs : List FileNode) :
    (processFiles c dr fs).visited = [] := by
  induction fs with
  | nil => rfl
  | cons f fs ih =>
    have hf : (fileRes c dr f).visited = [] := by
      cases h : fileOutcome c (joinRel dr f.name) f <;> simp [fileRes, h]
    rw [processFiles, WalkRes.app_visited, hf, ih]
    rfl

/-- Every entry of the file pass has the singleton component path of its
name. -/
theorem processFiles_entry_comps (c : EffConfig) (dr : String) (fs : List FileNode) :
    ∀ e ∈ (processFiles c dr fs).entries, e.comps = [e.name] := by
  induction fs with
  | nil => intro e he; cases he
  | cons f fs ih =>
    intro e he
    rw [processFiles, WalkRes.app_entries, List.mem_append] at he
    rcases he with he | he
    · cases h : fileOutcome c (joinRel dr f.name) f <;> rw [fileRes] at he <;>
        rw [h] at he
      case notIncluded => cases he
      case excludedFile => cases he
      case binary => cases he
      case readError => cases he
      case processed r content =>
        have he' : e = ⟨r, f.name, content, [f.name]⟩ := by simpa using he
        subst he'
        rfl
    · exact ih e he

/-- The pruning pass records no visits and no entries. -/
theorem pruneRes_no_ve (c : EffConfig) (dr : String) :
    ∀ l : SubdirList, (pruneRes c dr l).visited = [] ∧ (pruneRes c dr l).entries = []
  | .nil => ⟨rfl, rfl⟩
  | .cons n t rest => by
    have ih := pruneRes_no_ve c dr rest
    rw [pruneRes, WalkRes.app_visited, WalkRes.app_entries, ih.1, ih.2]
    constructor <;> split <;> rfl

/-- Well-formedness of a directory yields the parts needed here. -/
theorem wfDir_parts {subs : SubdirList} {files : List FileNode}
    (h : wfDir (.node subs files) = true) :
    (subNames subs).Nodup ∧ wfSubs subs = true := by
  rw [wfDir] at h
  simp only [Bool.and_eq_true, decide_eq_true_eq] at h
  exact ⟨h.1.2, h.2⟩

/-- Well-formedness of a listing propagates to its parts. -/
theorem wfSubs_parts {n : String} {t : DirTree} {rest : SubdirList}
    (h : wfSubs (.cons n t rest) = true) : wfDir t = true ∧ wfSubs rest = true := by
  rw [wfSubs] at h
  simpa [Bool.and_eq_true] using h

mutual
/-- Separation: no pruned directory of a walk over a well-formed tree is a
component-path prefix of any visited directory, nor of the directory part of
any produced entry — the pruned subtree is never visited and contributes no
output. -/
theorem sep_walkDir (c : EffConfig) (dr : String) :
    ∀ t : DirTree, wfDir t = true →
      ∀ P ∈ (walkDir c dr t).prunedDirs,
        (∀ V ∈ (walkDir c dr t).visited, ¬ P <+: V) ∧
        (∀ e ∈ (walkDir c dr t).entries, ¬ P <+: e.comps.dropLast)
  | .node subs files => fun hwf => by
    obtain ⟨hnd, hws⟩ := wfDir_parts hwf
    obtain ⟨shE, shV, shP⟩ := walkSubs_shape c dr subs
    have hfd := (processFiles_no_dirs c dr files).2
    have hfv := processFiles_no_visited c dr files
    have hpv := pruneRes_no_ve c dr subs
    intro P hP
    have hPmem : P ∈ (pruneRes c dr subs).prunedDirs ∨
        P ∈ (walkSubs c dr subs).prunedDirs := by
      rw [walkDir] at hP
      simp only [WalkRes.app_prunedDirs, hfd, List.mem_append] at hP
      simpa using hP
    constructor
    · intro V hV
      have hVmem : V = [] ∨ V ∈ (walkSubs c dr subs).visited := by
        rw [walkDir] at hV
        simp only [WalkRes.app_visited, hfv, hpv.1, List.mem_append] at hV
        simpa using hV
      rcases hVmem with rfl | hV'
      · intro hpre
        rw [List.prefix_nil] at hpre
        rcases hPmem with hP' | hP'
        · obtain ⟨n, rfl, -, -⟩ := pruneRes_mem c dr subs P hP'
          cases hpre
        · obtain ⟨m, P', -, -, rfl⟩ := shP P hP'
          cases hpre
      · rcases hPmem with hP' | hP'
        · obtain ⟨n, rfl, hnmem, hxn⟩ := pruneRes_mem c dr subs P hP'
          obtain ⟨m, V', hmmem, hxm, rfl⟩ := shV V hV'
          intro hpre
          rw [List.cons_prefix_cons] at hpre
          obtain ⟨rfl, -⟩ := hpre
          rw [hxn] at hxm
          cases hxm
        · exact (sep_walkSubs c dr subs hws hnd P hP').1 V hV'
    · intro e he
      have hEmem : e ∈ (processFiles c dr files).entries ∨
          e ∈ (walkSubs c dr subs).entries := by
        rw [walkDir] at he
        simp only [WalkRes.app_entries, hpv.2, List.mem_append] at he
        simpa using he
      rcases hEmem with he' | he'
      · have hc := processFiles_entry_comps c dr files e he'
        rw [hc]
        intro hpre
        rw [List.dropLast_single, List.prefix_nil] at hpre
        rcases hPmem with hP' | hP'
        · obtain ⟨n, rfl, -, -⟩ := pruneRes_mem c dr subs P hP'
          cases hpre
        · obtain ⟨m, P', -, -, rfl⟩ := shP P hP'
          cases hpre
      · rcases hPmem with hP' | hP'
        · obtain ⟨n, rfl, hnmem, hxn⟩ := pruneRes_mem c dr subs P hP'
          obtain ⟨m, cc, hmmem, hxm, hcomps, hcc⟩ := shE e he'
          rw [hcomps, dropLast_cons_of_ne_nil m cc hcc]
          intro hpre
          rw [List.cons_prefix_cons] at hpre
          obtain ⟨rfl, -⟩ := hpre
          rw [hxn] at hxm
          cases hxm
        · exact (sep_walkSubs c dr subs hws hnd P hP').2 e he'
/-- Separation for the subdirectory descent of a well-formed listing with
duplicate-free names. -/
theorem sep_walkSubs (c : EffConfig) (dr : String) :
    ∀ l : SubdirList, wfSubs l = true → (subNames l).Nodup →
      ∀ P ∈ (walkSubs c dr l).prunedDirs,
        (∀ V ∈ (walkSubs c dr l).visited, ¬ P <+: V) ∧
        (∀ e ∈ (walkSubs c dr l).entries, ¬ P <+: e.comps.dropLast)
  | .nil => by
    intro _ _ P hP
    cases hP
  | .cons n t rest => fun hws hnd => by
    obtain ⟨hwt, hwrest⟩ := wfSubs_parts hws
    obtain ⟨hn_notin, hndrest⟩ := List.nodup_cons.mp (by simpa [subNames] using hnd)
    obtain ⟨shE, shV, shP⟩ := walkSubs_shape c dr rest
    by_cases hx : dir_is_excluded c (joinRel dr n) n = true
    · intro P hP
      rw [walkSubs, if_pos hx, WalkRes.empty_app] at hP
      constructor
      · intro V hV
        rw [walkSubs, if_pos hx, WalkRes.empty_app] at hV
        exact (sep_walkSubs c dr rest hwrest hndrest P hP).1 V hV
      · intro e he
        rw [walkSubs, if_pos hx, WalkRes.empty_app] at he
        exact (sep_walkSubs c dr rest hwrest hndrest P hP).2 e he
    · intro P hP
      rw [walkSubs, if_neg hx, WalkRes.app_prunedDirs, List.mem_append] at hP
      rcases hP with hP | hP
      · rw [WalkRes.underDir_prunedDirs, List.mem_map] at hP
        obtain ⟨P0, hP0, rfl⟩ := hP
        constructor
        · intro V hV
          rw [walkSubs, if_neg hx, WalkRes.app_visited, List.mem_append] at hV
          rcases hV with hV | hV
          · rw [WalkRes.underDir_visited, List.mem_map] at hV
            obtain ⟨V0, hV0, rfl⟩ := hV
            intro hpre
            rw [List.cons_prefix_cons] at hpre
            exact (sep_walkDir c (joinRel dr n) t hwt P0 hP0).1 V0 hV0 hpre.2
          · obtain ⟨m, V', hmmem, -, rfl⟩ := shV V hV
            intro hpre
            rw [List.cons_prefix_cons] at hpre
            obtain ⟨rfl, -⟩ := hpre
            exact hn_notin hmmem
        · intro e he
          rw [walkSubs, if_neg hx, WalkRes.app_entries, List.mem_append] at he
          rcases he with he | he
          · rw [WalkRes.underDir_entries, List.mem_map] at he
            obtain ⟨e0, he0, rfl⟩ := he
            obtain ⟨-, -, pre, hpre0⟩ := entriesOk_walkDir c (joinRel dr n) t e0 he0
            have hne : e0.comps ≠ [] := by
              rw [hpre0]
              simp
            show ¬ (n :: P0) <+: (n :: e0.comps).dropLast
            rw [dropLast_cons_of_ne_nil n e0.comps hne]
            intro hpre
            rw [List.cons_prefix_cons] at hpre
            exact (sep_walkDir c (joinRel dr n) t hwt P0 hP0).2 e0 he0 hpre.2
          · obtain ⟨m, cc, hmmem, -, hcomps, hcc⟩ := shE e he
            rw [hcomps, dropLast_cons_of_ne_nil m cc hcc]
            intro hpre
            rw [List.cons_prefix_cons] at hpre
            obtain ⟨rfl, -⟩ := hpre
            exact hn_notin hmmem
      · obtain ⟨m, P', hmmem, -, rfl⟩ := shP P hP
        constructor
        · intro V hV
          rw [walkSubs, if_neg hx, WalkRes.app_visited, List.mem_append] at hV
          rcases hV with hV | hV
          · rw [WalkRes.underDir_visited, List.mem_map] at hV
            obtain ⟨V0, hV0, rfl⟩ := hV
            intro hpre
            rw [List.cons_prefix_cons] at hpre
            obtain ⟨rfl, -⟩ := hpre
            exact hn_notin hmmem
          · exact (sep_walkSubs c dr rest hwrest hndrest _ hP).1 V hV
        · intro e he
          rw [walkSubs, if_neg hx, WalkRes.app_entries, List.mem_append] at he
          rcases he with he | he
          · rw [WalkRes.underDir_entries, List.mem_map] at he
            obtain ⟨e0, he0, rfl⟩ := he
            obtain ⟨-, -, pre, hpre0⟩ := entriesOk_walkDir c (joinRel dr n) t e0 he0
            have hne : e0.comps ≠ [] := by
              rw [hpre0]
              simp
            show ¬ (m :: P') <+: (n :: e0.comps).dropLast
            rw [dropLast_cons_of_ne_nil n e0.comps hne]
            intro hpre
            rw [List.cons_prefix_cons] at hpre
            obtain ⟨rfl, -⟩ := hpre
            exact hn_notin hmmem
          · exact (sep_walkSubs c dr rest hwrest hndrest _ hP).2 e he
end

/-- Claim C3: the pruning decision holds exactly when the relative path is
an exact member of `excludeDirs`, or some exclude pattern matches the
relative path with a trailing slash, the relative path itself, or the bare
name against the pattern with trailing slashes stripped; the decision reads
only the exclusion fields, so inclusion rules never prune; at any visited
listing a child is recorded pruned exactly when the decision fires; and no
pruned directory is an ancestor (component-path prefix) of any visited
directory or of any produced entry's directory — the subtree is never
visited and none of its descendant files appear in the output. -/
theorem dir_pruning_characterization
    (c : Config) (ofn sd : String) (tree : DirTree) (eff : EffConfig) (r : WalkRes)
    (_heff : eff = effConfig c (normalize_path (normpath (pyJoin sd ofn))))
    (h : create_summary ofn sd c tree true = .ok r)
    (hwf : wfDir tree = true) :
    (∀ rel name : String,
      dir_is_excluded eff rel name = true ↔
        (rel ∈ eff.exclude_dirs ∨ ∃ pat ∈ eff.combined,
          fnmatch (rel ++ "/") pat = true ∨ fnmatch rel pat = true ∨
            fnmatch name (rstripSlashes pat) = true)) ∧
    (∀ c2 : EffConfig, c2.exclude_dirs = eff.exclude_dirs → c2.combined = eff.combined →
      ∀ rel name : String, dir_is_excluded c2 rel name = dir_is_excluded eff rel name) ∧
    (∀ (dr : String) (l : SubdirList) (n : String), n ∈ subNames l →
      ([n] ∈ (pruneRes eff dr l).prunedDirs ↔
        dir_is_excluded eff (joinRel dr n) n = true)) ∧
    (∀ P ∈ r.prunedDirs,
      (∀ V ∈ r.visited, ¬ P <+: V) ∧ (∀ e ∈ r.entries, ¬ P <+: e.comps.dropLast)) := by
  have hr : r = walkDir (effConfig c (normalize_path (normpath (pyJoin sd ofn)))) "" tree := by
    simpa [create_summary] using h.symm
  refine ⟨?_, ?_, ?_, ?_⟩
  · intro rel name
    unfold dir_is_excluded
    rw [Bool.or_eq_true, List.any_eq_true]
    constructor
    · rintro (h1 | ⟨pat, hp, hm⟩)
      · exact Or.inl (List.elem_iff.mp h1)
      · exact Or.inr ⟨pat, hp, by
          simpa [Bool.or_eq_true, or_assoc] using hm⟩
    · rintro (h1 | ⟨pat, hp, hm⟩)
      · exact Or.inl (List.elem_iff.mpr h1)
      · exact Or.inr ⟨pat, hp, by
          simpa [Bool.or_eq_true, or_assoc] using hm⟩
  · intro c2 h1 h2 rel name
    unfold dir_is_excluded
    rw [h1, h2]
  · intro dr l n hn
    constructor
    · intro hmem
      obtain ⟨n', heq, -, hx⟩ := pruneRes_mem eff dr l [n] hmem
      have : n = n' := by
        simpa using heq
      rw [this]
      exact hx
    · intro hx
      exact pruneRes_mem_of eff dr l n hn hx
  · subst hr
    exact fun P hP => sep_walkDir _ "" tree hwf P hP

/-- Witness for C3 at a concrete configuration that directly excludes the
directory `sub`: the child `sub` of the scanned root's listing is recorded
pruned exactly because the decision fires. -/
theorem dir_pruning_characterization_witness :
    [("sub" : String)] ∈ (pruneRes
        (effConfig pruneCfgW (normalize_path (normpath (pyJoin "." "out.txt")))) ""
        (SubdirList.cons "sub" (DirTree.node .nil [plainFileW "c.txt" "world"])
          .nil)).prunedDirs ↔
      dir_is_excluded (effConfig pruneCfgW (normalize_path (normpath (pyJoin "." "out.txt"))))
        (joinRel "" "sub") "sub" = true :=
  (dir_pruning_characterization pruneCfgW "out.txt" "." treeW _ _ rfl rfl (by decide)).2.2.1
    "" (SubdirList.cons "sub" (DirTree.node .nil [plainFileW "c.txt" "world"]) .nil)
    "sub" (by decide)

/-- The component paths of a directory's file entries form a sublist of the
singleton paths of its file names. -/
theorem processFiles_comps_sublist (c : EffConfig) (dr : String) (fs : List FileNode) :
    ((processFiles c dr fs).entries.map (fun e => e.comps)).Sublist
      (fs.map (fun f => [f.name])) := by
  induction fs with
  | nil => simp [processFiles, WalkRes.empty]
  | cons f fs ih =>
    rw [processFiles, WalkRes.app_entries, List.map_append, List.map_cons]
    cases h : fileOutcome c (joinRel dr f.name) f
    case processed r content =>
      have : (fileRes c dr f).entries = [⟨r, f.name, content, [f.name]⟩] := by
        simp [fileRes, h]
      rw [this]
      exact List.Sublist.cons₂ _ ih
    all_goals
      have : (fileRes c dr f).entries = [] := by simp [fileRes, h]
      rw [this]
      exact List.Sublist.cons _ ih

mutual
/-- Over a well-formed tree, the produced entries have pairwise distinct
component paths: each file yields at most one entry. -/
theorem nodup_walkDir (c : EffConfig) (dr : String) :
    ∀ t : DirTree, wfDir t = true →
      ((walkDir c dr t).entries.map (fun e => e.comps)).Nodup
  | .node subs files => fun hwf => by
    have hpv := pruneRes_no_ve c dr subs
    obtain ⟨hnd, hws⟩ := wfDir_parts hwf
    have hfnd : (files.map (fun f => f.name)).Nodup := by
      rw [wfDir] at hwf
      simp only [Bool.and_eq_true, decide_eq_true_eq] at hwf
      exact hwf.1.1.1.2
    have hA : ((processFiles c dr files).entries.map (fun e => e.comps)).Nodup := by
      refine (processFiles_comps_sublist c dr files).nodup ?_
      have : files.map (fun f => [f.name]) = (files.map (fun f => f.name)).map
          (fun n => [n]) := by
        rw [List.map_map]
        exact List.map_congr_left (fun f _ => rfl)
      rw [this]
      exact hfnd.map (fun a b hab => by simpa using hab)
    have hB := nodup_walkSubs c dr subs hws hnd
    obtain ⟨shE, -, -⟩ := walkSubs_shape c dr subs
    have hent : (walkDir c dr (.node subs files)).entries
        = (processFiles c dr files).entries ++ (walkSubs c dr subs).entries := by
      rw [walkDir]
      simp [hpv.2]
    rw [hent, List.map_append]
    refine List.Nodup.append hA hB ?_
    intro x hx hy
    rw [List.mem_map] at hx hy
    obtain ⟨e1, he1, rfl⟩ := hx
    obtain ⟨e2, he2, hcomps⟩ := hy
    obtain ⟨m, cc, -, -, h3, h4⟩ := shE e2 he2
    have h5 := processFiles_entry_comps c dr files e1 he1
    rw [h5] at hcomps
    rw [h3] at hcomps
    cases cc with
    | nil => exact h4 rfl
    | cons a l => cases hcomps
/-- Over a well-formed listing, the subdirectory descent's entries have
pairwise distinct component paths. -/
theorem nodup_walkSubs (c : EffConfig) (dr : String) :
    ∀ l : SubdirList, wfSubs l = true → (subNames l).Nodup →
      ((walkSubs c dr l).entries.map (fun e => e.comps)).Nodup
  | .nil => fun _ _ => by
    simp [walkSubs, WalkRes.empty]
  | .cons n t rest => fun hws hnd => by
    obtain ⟨hwt, hwrest⟩ := wfSubs_parts hws
    obtain ⟨hn_notin, hndrest⟩ := List.nodup_cons.mp (by simpa [subNames] using hnd)
    obtain ⟨shE, -, -⟩ := walkSubs_shape c dr rest
    by_cases hx : dir_is_excluded c (joinRel dr n) n = true
    · rw [walkSubs, if_pos hx, WalkRes.empty_app]
      exact nodup_walkSubs c dr rest hwrest hndrest
    · rw [walkSubs, if_neg hx, WalkRes.app_entries, List.map_append]
      have hA : (((walkDir c (joinRel dr n) t).underDir n).entries.map
          (fun e => e.comps)).Nodup := by
        rw [WalkRes.underDir_entries, List.map_map]
        have : ((fun e : Entry => e.comps) ∘
            (fun e : Entry => (⟨e.rel, e.name, e.content, n :: e.comps⟩ : Entry)))
            = (fun l => n :: l) ∘ (fun e : Entry => e.comps) := rfl
        rw [this, ← List.map_map]
        exact (nodup_walkDir c (joinRel dr n) t hwt).map
          (fun a b hab => by simpa using hab)
      have hB := nodup_walkSubs c dr rest hwrest hndrest
      refine List.Nodup.append hA hB ?_
      intro x hx1 hx2
      rw [List.mem_map] at hx1 hx2
      obtain ⟨e1, he1, rfl⟩ := hx1
      obtain ⟨e2, he2, hcomps⟩ := hx2
      rw [WalkRes.underDir_entries, List.mem_map] at he1
      obtain ⟨e0, he0, rfl⟩ := he1
      obtain ⟨m, cc, hmmem, -, h3, -⟩ := shE e2 he2
      rw [h3] at hcomps
      have : n = m := by
        have h6 := congrArg (fun l => l.head?) hcomps
        simpa using h6.symm
      rw [this] at hn_notin
      exact hn_notin hmmem
end

/-- Claim C6: for every run that opens its output, the output stream is
exactly the concatenation, over the produced entries in walk order, of one
block per included file consisting of the header `"# "` plus the
forward-slash relative path, a newline, the file's content as read, and
exactly two newline characters; there is exactly one entry per processed
file, and over a well-formed tree distinct entries come from distinct files
(distinct component paths), so every included file gets exactly one header
line. -/
theorem output_format (c : Config) (ofn sd : String) (tree : DirTree) (r : WalkRes)
    (h : create_summary ofn sd c tree true = .ok r) :
    r.out = String.join (r.entries.map
      (fun e => "# " ++ e.rel ++ "\n" ++ e.content ++ "\n\n")) ∧
    r.entries.length = r.processed_files_count ∧
    (wfDir tree = true → (r.entries.map (fun e => e.comps)).Nodup) := by
  have hr : r = walkDir (effConfig c (normalize_path (normpath (pyJoin sd ofn)))) "" tree := by
    simpa [create_summary] using h.symm
  subst hr
  have h1 := outShape_walkDir (effConfig c (normalize_path (normpath (pyJoin sd ofn)))) "" tree
  exact ⟨h1.1, h1.2, fun hwf => nodup_walkDir _ "" tree hwf⟩

/-- Witness for C6 on a concrete two-file tree. -/
theorem output_format_witness :
    (walkDir (effConfig emptyConfigW (normalize_path (normpath (pyJoin "." "out.txt"))))
        "" treeW).out
      = String.join ((walkDir (effConfig emptyConfigW
          (normalize_path (normpath (pyJoin "." "out.txt")))) "" treeW).entries.map
        (fun e => "# " ++ e.rel ++ "\n" ++ e.content ++ "\n\n")) ∧
    (walkDir (effConfig emptyConfigW (normalize_path (normpath (pyJoin "." "out.txt"))))
        "" treeW).entries.length
      = (walkDir (effConfig emptyConfigW (normalize_path (normpath (pyJoin "." "out.txt"))))
        "" treeW).processed_files_count ∧
    ((walkDir (effConfig emptyConfigW (normalize_path (normpath (pyJoin "." "out.txt"))))
        "" treeW).entries.map (fun e => e.comps)).Nodup := by
  have h := output_format emptyConfigW "out.txt" "." treeW _ rfl
  exact ⟨h.1, h.2.1, h.2.2 (by decide)⟩
